import Mathlib

/-!
Verification of the HyperRED codec and decoding layer.

This file gives a shallow embedding, in Lean 4, of the data-representation
and decoding algorithms of the repository:

* the SparseCube dense/sparse 3-D tensor codec (data_process.py,
  SparseCube.from_numpy / SparseCube.numpy / SparseCube.check_equal);
* the box-fill encoder for the joint label grid (data_process.py,
  add_joint_label, entity loop);
* the BIO span codec (data_process.py, BioEncoder.run / BioEncoder.decode);
* the boundary-detection and span-candidate steps and the entity-acceptance
  test of the soft joint decoder (models/joint_decoding/q_decoder.py,
  EntRelJointDecoder.soft_joint_decoding).

Machine integers are modelled as Nat, Python lists as Lean lists, numpy
score values as rationals, and fallible operations (Python assert and
IndexError) as Option.  Each definition mirrors the corresponding source
function; theorems about the definitions follow after all definitions.
-/

/-- A dense 3-D numpy array of natural-number label ids: an explicit shape
(dimI, dimJ, dimK) together with the cell contents as a function.  Cells
outside the shape are irrelevant: every operation below touches only
in-bounds coordinates, exactly as numpy indexing does. -/
structure Dense3 where
  dimI : ℕ
  dimJ : ℕ
  dimK : ℕ
  data : ℕ → ℕ → ℕ → ℕ

/-- Sparse storage for a 3-D label volume: a shape and a list of
(i, j, k, value) entries.  Mirrors the SparseCube pydantic model of
data_process.py. -/
structure SparseCube where
  shape : ℕ × ℕ × ℕ
  entries : List (ℕ × ℕ × ℕ × ℕ)

/-- All coordinates of a (dI, dJ, dK) volume in row-major (C) order, the
order in which numpy.nonzero reports coordinates. -/
def allCoords (dI dJ dK : ℕ) : List (ℕ × ℕ × ℕ) :=
  (List.range dI).flatMap fun i =>
    (List.range dJ).flatMap fun j =>
      (List.range dK).map fun k => (i, j, k)

/-- SparseCube.from_numpy: scan the nonzero coordinates of a dense array in
row-major order and emit one (i, j, k, value) entry per nonzero cell; the
shape is copied verbatim. -/
def SparseCube.from_numpy (x : Dense3) : SparseCube where
  shape := (x.dimI, x.dimJ, x.dimK)
  entries := (allCoords x.dimI x.dimJ x.dimK).filterMap fun c =>
    if x.data c.1 c.2.1 c.2.2 ≠ 0 then
      some (c.1, c.2.1, c.2.2, x.data c.1 c.2.1 c.2.2)
    else none

/-- The sequential entry-writing loop of SparseCube.numpy: starting from a
zero-filled cell, each entry whose coordinate matches overwrites the cell,
so the last matching write wins. -/
def writeEntries (entries : List (ℕ × ℕ × ℕ × ℕ)) (i j k : ℕ) : ℕ :=
  entries.foldl
    (fun acc e => if e.1 = i ∧ e.2.1 = j ∧ e.2.2.1 = k then e.2.2.2 else acc) 0

/-- SparseCube.numpy: materialize a cube to a dense array by allocating a
zero-filled array of the stored shape and writing each entry's value at its
coordinate in list order. -/
def SparseCube.numpy (c : SparseCube) : Dense3 where
  dimI := c.shape.1
  dimJ := c.shape.2.1
  dimK := c.shape.2.2
  data := fun i j k => writeEntries c.entries i j k

/-- SparseCube.check_equal: shapes must be equal and the entry lists must be
equal as sets (Python set(self.entries) == set(other.entries), i.e. mutual
membership). -/
def SparseCube.check_equal (a b : SparseCube) : Bool :=
  decide (a.shape = b.shape)
    && a.entries.all (fun e => decide (e ∈ b.entries))
    && b.entries.all (fun e => decide (e ∈ a.entries))

/-- The two concrete cubes used to separate entry-set equality from
dense-form equality: same entry sets, opposite write order at the single
duplicated coordinate. -/
def cubeA : SparseCube := ⟨(1, 1, 1), [(0, 0, 0, 1), (0, 0, 0, 2)]⟩

/-- Companion cube to cubeA with the same entries listed in reverse order. -/
def cubeB : SparseCube := ⟨(1, 1, 1), [(0, 0, 0, 2), (0, 0, 0, 1)]⟩

section SparseCubeLemmas

/-- The write loop, folded from an arbitrary accumulator: if every entry that
matches coordinate (i, j, k) carries value v, the fold returns v when a
matching entry exists and the accumulator otherwise. -/
theorem writeEntries_foldl_char (l : List (ℕ × ℕ × ℕ × ℕ)) (i j k a v : ℕ)
    (hv : ∀ e ∈ l, e.1 = i ∧ e.2.1 = j ∧ e.2.2.1 = k → e.2.2.2 = v) :
    l.foldl
      (fun acc e => if e.1 = i ∧ e.2.1 = j ∧ e.2.2.1 = k then e.2.2.2 else acc) a
      = if (∃ e ∈ l, e.1 = i ∧ e.2.1 = j ∧ e.2.2.1 = k) then v else a := by
  induction l generalizing a with
  | nil => simp
  | cons e l ih =>
    have hv' : ∀ x ∈ l, x.1 = i ∧ x.2.1 = j ∧ x.2.2.1 = k → x.2.2.2 = v :=
      fun x hx => hv x (List.mem_cons_of_mem _ hx)
    by_cases he : e.1 = i ∧ e.2.1 = j ∧ e.2.2.1 = k
    · have hev : e.2.2.2 = v := hv e (List.mem_cons_self e l) he
      simp only [List.foldl_cons, if_pos he, hev]
      rw [ih v hv', ite_self, if_pos ⟨e, List.mem_cons_self e l, he⟩]
    · simp only [List.foldl_cons, if_neg he]
      rw [ih a hv']
      have hiff : (∃ x ∈ e :: l, x.1 = i ∧ x.2.1 = j ∧ x.2.2.1 = k) ↔
          (∃ x ∈ l, x.1 = i ∧ x.2.1 = j ∧ x.2.2.1 = k) := by
        simp only [List.mem_cons]
        constructor
        · rintro ⟨x, hx | hx, hP⟩
          · exact absurd hP (hx ▸ he)
          · exact ⟨x, hx, hP⟩
        · rintro ⟨x, hx, hP⟩
          exact ⟨x, Or.inr hx, hP⟩
      rw [if_congr hiff rfl rfl]

theorem writeEntries_char (l : List (ℕ × ℕ × ℕ × ℕ)) (i j k v : ℕ)
    (hv : ∀ e ∈ l, e.1 = i ∧ e.2.1 = j ∧ e.2.2.1 = k → e.2.2.2 = v) :
    writeEntries l i j k
      = if (∃ e ∈ l, e.1 = i ∧ e.2.1 = j ∧ e.2.2.1 = k) then v else 0 :=
  writeEntries_foldl_char l i j k 0 v hv

theorem mem_allCoords {dI dJ dK : ℕ} {c : ℕ × ℕ × ℕ} :
    c ∈ allCoords dI dJ dK ↔ c.1 < dI ∧ c.2.1 < dJ ∧ c.2.2 < dK := by
  obtain ⟨i, j, k⟩ := c
  simp only [allCoords, List.mem_flatMap, List.mem_map, List.mem_range]
  constructor
  · rintro ⟨a, ha, b, hb, d, hd, h⟩
    obtain ⟨rfl, rfl, rfl⟩ : a = i ∧ b = j ∧ d = k := by simpa using h
    exact ⟨ha, hb, hd⟩
  · rintro ⟨hi, hj, hk⟩
    exact ⟨i, hi, j, hj, k, hk, rfl⟩

theorem mem_from_numpy_entries {x : Dense3} {e : ℕ × ℕ × ℕ × ℕ} :
    e ∈ (SparseCube.from_numpy x).entries ↔
      e.1 < x.dimI ∧ e.2.1 < x.dimJ ∧ e.2.2.1 < x.dimK ∧
        x.data e.1 e.2.1 e.2.2.1 ≠ 0 ∧ e.2.2.2 = x.data e.1 e.2.1 e.2.2.1 := by
  obtain ⟨i, j, k, v⟩ := e
  simp only [SparseCube.from_numpy, List.mem_filterMap]
  constructor
  · rintro ⟨⟨i', j', k'⟩, hc, he⟩
    by_cases h : x.data i' j' k' ≠ 0
    · rw [if_pos h] at he
      obtain ⟨rfl, rfl, rfl, rfl⟩ :
          i' = i ∧ j' = j ∧ k' = k ∧ x.data i' j' k' = v := by
        simpa using he
      have := mem_allCoords.mp hc
      exact ⟨this.1, this.2.1, this.2.2, h, rfl⟩
    · rw [if_neg h] at he
      exact absurd he (by simp)
  · rintro ⟨hi, hj, hk, hnz, rfl⟩
    refine ⟨(i, j, k), mem_allCoords.mpr ⟨hi, hj, hk⟩, ?_⟩
    rw [if_pos hnz]

end SparseCubeLemmas

/-- C1: for every dense 3-D array x of non-negative integers,
SparseCube.from_numpy(x).numpy() equals x element-wise on every in-bounds
coordinate, the shape is copied verbatim (including zero-sized dimensions),
and no entry of the resulting SparseCube has value 0. -/
theorem C1_sparse_roundtrip (x : Dense3) :
    (SparseCube.from_numpy x).shape = (x.dimI, x.dimJ, x.dimK) ∧
    (∀ e ∈ (SparseCube.from_numpy x).entries, e.2.2.2 ≠ 0) ∧
    ∀ i j k, i < x.dimI → j < x.dimJ → k < x.dimK →
      ((SparseCube.from_numpy x).numpy).data i j k = x.data i j k := by
  refine ⟨rfl, ?_, ?_⟩
  · intro e he
    obtain ⟨-, -, -, hnz, hv⟩ := mem_from_numpy_entries.mp he
    rw [hv]; exact hnz
  · intro i j k hi hj hk
    show writeEntries (SparseCube.from_numpy x).entries i j k = x.data i j k
    rw [writeEntries_char _ i j k (x.data i j k)]
    · by_cases hnz : x.data i j k = 0
      · rw [if_neg, hnz]
        rintro ⟨e, he, hci, hcj, hck⟩
        obtain ⟨-, -, -, h0, -⟩ := mem_from_numpy_entries.mp he
        rw [hci, hcj, hck] at h0
        exact h0 hnz
      · rw [if_pos]
        exact ⟨(i, j, k, x.data i j k),
          mem_from_numpy_entries.mpr ⟨hi, hj, hk, hnz, rfl⟩, rfl, rfl, rfl⟩
    · intro e he hc
      obtain ⟨-, -, -, -, hv⟩ := mem_from_numpy_entries.mp he
      rw [hv, hc.1, hc.2.1, hc.2.2]

/-- Witness for C1 at a concrete 1×1×1 array with single cell value 7. -/
theorem C1_sparse_roundtrip_witness :
    (0 < 1 ∧ 0 < 1 ∧ 0 < 1) ∧
    ((SparseCube.from_numpy ⟨1, 1, 1, fun _ _ _ => 7⟩).numpy).data 0 0 0
      = (Dense3.mk 1 1 1 (fun _ _ _ => 7)).data 0 0 0 :=
  ⟨⟨Nat.one_pos, Nat.one_pos, Nat.one_pos⟩,
    (C1_sparse_roundtrip ⟨1, 1, 1, fun _ _ _ => 7⟩).2.2 0 0 0
      Nat.one_pos Nat.one_pos Nat.one_pos⟩

/-- C4 counterexample: cubeA and cubeB have equal entry sets, so check_equal
returns true, yet their materialized dense forms differ at the in-bounds
coordinate (0,0,0) (write order decides among duplicate coordinates), so
check_equal is not equivalent to dense-form equality. -/
theorem C4_counterexample :
    SparseCube.check_equal cubeA cubeB = true ∧
    (cubeA.numpy).data 0 0 0 = 2 ∧ (cubeB.numpy).data 0 0 0 = 1 ∧
    cubeA.shape.1 = 1 ∧ cubeA.shape.2.1 = 1 ∧ cubeA.shape.2.2 = 1 := by
  refine ⟨by decide, ?_, ?_, rfl, rfl, rfl⟩ <;> rfl

/-- C4 amended: check_equal returns true iff the shapes are equal and the
entry lists are equal as sets; in particular two cubes whose entry lists are
permutations of each other (same shape) compare equal. -/
theorem C4_check_equal_iff (a b : SparseCube) :
    (SparseCube.check_equal a b = true ↔
      a.shape = b.shape ∧ ∀ e, e ∈ a.entries ↔ e ∈ b.entries) ∧
    (a.shape = b.shape → a.entries.Perm b.entries →
      SparseCube.check_equal a b = true) := by
  constructor
  · simp only [SparseCube.check_equal, Bool.and_eq_true, List.all_eq_true,
      decide_eq_true_eq]
    constructor
    · rintro ⟨⟨hs, hab⟩, hba⟩
      exact ⟨hs, fun e => ⟨fun h => hab e h, fun h => hba e h⟩⟩
    · rintro ⟨hs, h⟩
      exact ⟨⟨hs, fun e he => (h e).mp he⟩, fun e he => (h e).mpr he⟩
  · intro hs hperm
    simp only [SparseCube.check_equal, Bool.and_eq_true, List.all_eq_true,
      decide_eq_true_eq]
    exact ⟨⟨hs, fun e he => hperm.mem_iff.mp he⟩,
      fun e he => hperm.mem_iff.mpr he⟩

/-- Witness for C4's amended theorem at the concrete cubes cubeA, cubeB. -/
theorem C4_check_equal_iff_witness :
    (cubeA.shape = cubeB.shape ∧ cubeA.entries.Perm cubeB.entries) ∧
    SparseCube.check_equal cubeA cubeB = true :=
  ⟨⟨by decide, by decide⟩,
    (C4_check_equal_iff cubeA cubeB).2 (by decide) (by decide)⟩

/-- Boundary detection of soft_joint_decoding.  The source computes, for each
adjacent token pair i, i+1, the average of the Euclidean distances between
row-view and column-view feature vectors, then keeps the indices where that
value strictly exceeds separate_threshold:
( (np.linalg.norm(row_i - row_i1) + np.linalg.norm(col_i - col_i1)) * 0.5
  > separate_threshold ).nonzero()[0].
The per-pair averaged distances are real-valued (they involve square roots),
so they enter here as the list dist of length seq_len - 1; the thresholding
step is modelled exactly. -/
def separate_pos (dist : List ℚ) (threshold : ℚ) : List ℕ :=
  (List.range dist.length).filter fun i => decide (threshold < dist.getD i 0)

/-- Candidate-span construction of soft_joint_decoding: with boundaries
present the source builds the list as first span, then last span, then the
middle spans; with no boundary, one span covering the whole sentence.
Python separate_pos[0] is headD, separate_pos[-1] is getLastD. -/
def make_spans (ps : List ℕ) (L : ℕ) : List (ℕ × ℕ) :=
  if ps.isEmpty then [(0, L)]
  else
    [(0, ps.headD 0 + 1), (ps.getLastD 0 + 1, L)]
      ++ (List.range (ps.length - 1)).map fun i =>
          (ps.getD i 0 + 1, ps.getD (i + 1) 0 + 1)

/-- The per-channel average of joint[span × span]: np.mean over both axes of
joint_score[s:e, s:e, :], one channel at a time. -/
def avgScore (joint : ℕ → ℕ → ℕ → ℚ) (s e c : ℕ) : ℚ :=
  (∑ i in Finset.Ico s e, ∑ j in Finset.Ico s e, joint i j c)
    / (((e - s) * (e - s) : ℕ) : ℚ)

/-- np.max over a nonempty list of scores (the [] case never arises in the
source, which indexes a nonempty label array). -/
def listMaxQ : List ℚ → ℚ
  | [] => 0
  | x :: xs => xs.foldl max x

/-- The entity-acceptance test of soft_joint_decoding: a candidate span is
accepted unless the maximum averaged entity-channel score is strictly below
the None-channel score, mirroring
if not (np.max(score[ent_label]) < score[self.none_idx]). -/
def ent_accept (joint : ℕ → ℕ → ℕ → ℚ) (sp : ℕ × ℕ)
    (entLabels : List ℕ) (noneIdx : ℕ) : Bool :=
  !(decide (listMaxQ (entLabels.map (avgScore joint sp.1 sp.2))
      < avgScore joint sp.1 sp.2 noneIdx))

/-- An all-zero score array: every entity channel ties the None channel. -/
def zeroJoint : ℕ → ℕ → ℕ → ℚ := fun _ _ _ => 0

/-- C2 counterexample: with identically zero scores the maximum averaged
entity score equals the None score on the span (0,1), yet the decoder
accepts the span, so a tie with None does not reject it. -/
theorem C2_counterexample :
    ent_accept zeroJoint (0, 1) [1] 0 = true ∧
    listMaxQ ([1].map (avgScore zeroJoint 0 1)) = avgScore zeroJoint 0 1 0 := by
  have h : ∀ c, avgScore zeroJoint 0 1 c = 0 := by
    intro c
    simp [avgScore, zeroJoint]
  constructor
  · simp [ent_accept, h, listMaxQ]
  · simp [listMaxQ, h]

/-- C2 amended: a candidate span is accepted (and assigned the arg-max
entity label) iff the maximum averaged entity-channel score is greater than
or equal to the None-channel score: ties with None accept the span, they do
not reject it. -/
theorem C2_accept_iff (joint : ℕ → ℕ → ℕ → ℚ) (sp : ℕ × ℕ)
    (entLabels : List ℕ) (noneIdx : ℕ) :
    ent_accept joint sp entLabels noneIdx = true ↔
      avgScore joint sp.1 sp.2 noneIdx
        ≤ listMaxQ (entLabels.map (avgScore joint sp.1 sp.2)) := by
  simp [ent_accept, not_lt]

/-- Consecutive pairs of a list of cut points: the spans delimited by the
cuts, in natural left-to-right order. -/
def consecPairs : List ℕ → List (ℕ × ℕ)
  | a :: b :: rest => (a, b) :: consecPairs (b :: rest)
  | _ => []

section SpanLemmas

theorem consec_of_range (ps : List ℕ) :
    (List.range (ps.length - 1)).map
        (fun i => (ps.getD i 0 + 1, ps.getD (i + 1) 0 + 1))
      = consecPairs (ps.map (· + 1)) := by
  induction ps with
  | nil => rfl
  | cons p tail ih =>
    cases tail with
    | nil => rfl
    | cons q rest =>
      have hlen : (p :: q :: rest).length - 1 = rest.length + 1 := by simp
      rw [hlen, List.range_succ_eq_map, List.map_cons, List.map_map]
      have hmap :
          (List.range rest.length).map
              ((fun i => ((p :: q :: rest).getD i 0 + 1,
                  (p :: q :: rest).getD (i + 1) 0 + 1)) ∘ Nat.succ)
            = (List.range ((q :: rest).length - 1)).map
              (fun i => ((q :: rest).getD i 0 + 1,
                  (q :: rest).getD (i + 1) 0 + 1)) := by
        have hlen2 : (q :: rest).length - 1 = rest.length := by simp
        rw [hlen2]
        apply List.map_congr_left
        intro i _
        simp [Function.comp, List.getD_cons_succ]
      rw [hmap, ih]
      simp [consecPairs, List.getD_cons_zero, List.getD_cons_succ]

theorem consecPairs_concat (x y : ℕ) (xs : List ℕ) :
    consecPairs ((x :: xs) ++ [y])
      = consecPairs (x :: xs) ++ [((x :: xs).getLastD 0, y)] := by
  induction xs generalizing x with
  | nil => rfl
  | cons b rest ih =>
    show (x, b) :: consecPairs ((b :: rest) ++ [y]) = _
    rw [ih b]
    simp [consecPairs, List.getLastD_cons]

theorem chain_le_getLastD (a : ℕ) (l : List ℕ)
    (h : List.Chain' (· < ·) (a :: l)) : a ≤ (a :: l).getLastD 0 := by
  induction l generalizing a with
  | nil => simp [List.getLastD_cons]
  | cons b rest ih =>
    have hab := (List.chain'_cons.mp h).1
    have h2 := (List.chain'_cons.mp h).2
    have hb := ih b h2
    simp only [List.getLastD_cons] at hb ⊢
    omega

theorem consec_fst_ge (a : ℕ) (l : List ℕ)
    (h : List.Chain' (· < ·) (a :: l)) :
    ∀ s ∈ consecPairs (a :: l), a ≤ s.1 := by
  induction l generalizing a with
  | nil => intro s hs; simp [consecPairs] at hs
  | cons b rest ih =>
    intro s hs
    have hab := (List.chain'_cons.mp h).1
    have h2 := (List.chain'_cons.mp h).2
    have hmem : s = (a, b) ∨ s ∈ consecPairs (b :: rest) := by
      simpa [consecPairs] using hs
    rcases hmem with rfl | hs'
    · exact le_refl a
    · exact le_trans (le_of_lt hab) (ih b h2 s hs')

theorem consec_valid (cuts : List ℕ) (h : List.Chain' (· < ·) cuts) :
    ∀ s ∈ consecPairs cuts, s.1 < s.2 := by
  induction cuts with
  | nil => intro s hs; simp [consecPairs] at hs
  | cons a l ih =>
    cases l with
    | nil => intro s hs; simp [consecPairs] at hs
    | cons b rest =>
      intro s hs
      have hmem : s = (a, b) ∨ s ∈ consecPairs (b :: rest) := by
        simpa [consecPairs] using hs
      rcases hmem with rfl | hs'
      · exact (List.chain'_cons.mp h).1
      · exact ih (List.chain'_cons.mp h).2 s hs'

theorem consec_pairwise (cuts : List ℕ) (h : List.Chain' (· < ·) cuts) :
    List.Pairwise (fun s t : ℕ × ℕ => s.2 ≤ t.1) (consecPairs cuts) := by
  induction cuts with
  | nil => simp [consecPairs]
  | cons a l ih =>
    cases l with
    | nil => simp [consecPairs]
    | cons b rest =>
      have hcp : consecPairs (a :: b :: rest)
          = (a, b) :: consecPairs (b :: rest) := rfl
      rw [hcp, List.pairwise_cons]
      exact ⟨consec_fst_ge b rest (List.chain'_cons.mp h).2,
        ih (List.chain'_cons.mp h).2⟩

theorem consec_cover (a : ℕ) (l : List ℕ)
    (h : List.Chain' (· < ·) (a :: l)) (x : ℕ) :
    (∃ s ∈ consecPairs (a :: l), s.1 ≤ x ∧ x < s.2) ↔
      a ≤ x ∧ x < (a :: l).getLastD 0 := by
  induction l generalizing a with
  | nil =>
    simp only [consecPairs, List.getLastD_cons]
    constructor
    · rintro ⟨s, hs, -⟩
      simp at hs
    · intro hx
      simp only [List.getLastD] at hx
      omega
  | cons b rest ih =>
    have hab := (List.chain'_cons.mp h).1
    have h2 := (List.chain'_cons.mp h).2
    have hble := chain_le_getLastD b rest h2
    have hsplit : (∃ s ∈ consecPairs (a :: b :: rest), s.1 ≤ x ∧ x < s.2) ↔
        ((a ≤ x ∧ x < b) ∨ ∃ s ∈ consecPairs (b :: rest), s.1 ≤ x ∧ x < s.2) := by
      constructor
      · rintro ⟨s, hs, hx⟩
        have hmem : s = (a, b) ∨ s ∈ consecPairs (b :: rest) := by
          simpa [consecPairs] using hs
        rcases hmem with rfl | hs'
        · exact Or.inl hx
        · exact Or.inr ⟨s, hs', hx⟩
      · rintro (hx | ⟨s, hs, hx⟩)
        · exact ⟨(a, b), by simp [consecPairs], hx⟩
        · refine ⟨s, ?_, hx⟩
          show s ∈ (a, b) :: consecPairs (b :: rest)
          exact List.mem_cons_of_mem _ hs
    rw [hsplit, ih b h2]
    simp only [List.getLastD_cons] at hble ⊢
    omega

theorem separate_pos_sorted (dist : List ℚ) (t : ℚ) :
    List.Pairwise (· < ·) (separate_pos dist t) :=
  (List.pairwise_lt_range _).filter _

theorem separate_pos_lt_length (dist : List ℚ) (t : ℚ) :
    ∀ p ∈ separate_pos dist t, p < dist.length := by
  intro p hp
  exact List.mem_range.mp (List.mem_filter.mp hp).1

theorem getLastD_map_succ (p : ℕ) (rest : List ℕ) :
    ((p + 1) :: rest.map (· + 1)).getLastD 0 = (p :: rest).getLastD 0 + 1 := by
  induction rest generalizing p with
  | nil => rfl
  | cons b r ih =>
    have hb := ih b
    simp only [List.map_cons, List.getLastD_cons] at hb ⊢
    exact hb

theorem make_spans_perm (p : ℕ) (rest : List ℕ) (L : ℕ) :
    (make_spans (p :: rest) L).Perm
      (consecPairs (0 :: (p :: rest).map (· + 1) ++ [L])) := by
  have hform : make_spans (p :: rest) L
      = (0, p + 1) :: (((p :: rest).getLastD 0 + 1, L)
        :: consecPairs ((p :: rest).map (· + 1))) := by
    simp only [make_spans, List.isEmpty_cons, Bool.false_eq_true, if_false]
    rw [consec_of_range]
    rfl
  have hr : consecPairs (0 :: (p :: rest).map (· + 1) ++ [L])
      = (0, p + 1) :: (consecPairs ((p :: rest).map (· + 1))
          ++ [((p :: rest).getLastD 0 + 1, L)]) := by
    show (0, p + 1) :: consecPairs (((p + 1) :: rest.map (· + 1)) ++ [L]) = _
    rw [consecPairs_concat, getLastD_map_succ]
    rfl
  rw [hform, hr]
  exact List.Perm.cons _ ((List.perm_append_singleton _ _).symm)

theorem make_spans_partition (ps : List ℕ) (L : ℕ) (hL : 1 ≤ L)
    (hsort : List.Pairwise (· < ·) ps) (hbound : ∀ p ∈ ps, p + 1 < L) :
    (∀ s ∈ make_spans ps L, s.1 < s.2) ∧
    List.Pairwise (fun a b : ℕ × ℕ => a.2 ≤ b.1 ∨ b.2 ≤ a.1) (make_spans ps L) ∧
    (∀ x, x < L ↔ ∃ s ∈ make_spans ps L, s.1 ≤ x ∧ x < s.2) := by
  cases ps with
  | nil =>
    refine ⟨?_, ?_, ?_⟩
    · intro s hs
      have : s = ((0 : ℕ), L) := by simpa [make_spans] using hs
      subst this
      exact hL
    · simp [make_spans]
    · intro x
      constructor
      · intro hx
        exact ⟨(0, L), by simp [make_spans], by omega, hx⟩
      · rintro ⟨s, hs, h1, h2⟩
        have : s = ((0 : ℕ), L) := by simpa [make_spans] using hs
        subst this
        exact h2
  | cons p rest =>
    have hperm := make_spans_perm p rest L
    have hchain : List.Chain' (· < ·) (0 :: (p :: rest).map (· + 1) ++ [L]) := by
      rw [List.chain'_iff_pairwise]
      refine List.pairwise_cons.mpr ⟨?_, ?_⟩
      · intro y hy
        rcases List.mem_append.mp hy with hy' | hy'
        · obtain ⟨q, -, rfl⟩ := List.mem_map.mp hy'
          omega
        · have : y = L := by simpa using hy'
          omega
      · rw [List.append_eq, List.pairwise_append]
        refine ⟨hsort.map _ (fun a b hab => by omega), by simp, ?_⟩
        intro y hy z hz
        have hz' : z = L := by simpa using hz
        obtain ⟨q, hq, rfl⟩ := List.mem_map.mp hy
        subst hz'
        exact hbound q hq
    have hlast : ((0 : ℕ) :: (p :: rest).map (· + 1) ++ [L]).getLastD 0 = L := by
      show ((0 :: (p :: rest).map (· + 1)) ++ [L]).getLastD 0 = L
      rw [List.getLastD_concat]
    refine ⟨?_, ?_, ?_⟩
    · intro s hs
      exact consec_valid _ hchain s (hperm.mem_iff.mp hs)
    · refine (hperm.pairwise_iff (fun {x y} hxy => Or.symm hxy)).mpr ?_
      exact (consec_pairwise _ hchain).imp (fun hab => Or.inl hab)
    · intro x
      rw [show (0 : ℕ) :: (p :: rest).map (· + 1) ++ [L]
          = 0 :: ((p :: rest).map (· + 1) ++ [L]) from rfl] at hchain hlast
      have hcov := consec_cover 0 ((p :: rest).map (· + 1) ++ [L]) hchain x
      rw [hlast] at hcov
      constructor
      · intro hx
        obtain ⟨s, hs, hxs⟩ := hcov.mpr ⟨Nat.zero_le x, hx⟩
        exact ⟨s, hperm.mem_iff.mpr hs, hxs⟩
      · rintro ⟨s, hs, hxs⟩
        exact (hcov.mp ⟨s, hperm.mem_iff.mp hs, hxs⟩).2

end SpanLemmas

/-- C6: for every sequence length L ≥ 1 and every detected boundary set, the
candidate spans produced by soft_joint_decoding are nonempty contiguous
intervals, pairwise disjoint, and cover [0, L) exactly; with zero detected
boundaries the span list is exactly [(0, L)]. -/
theorem C6_spans_partition (dist : List ℚ) (t : ℚ) (L : ℕ) (hL : 1 ≤ L)
    (hlen : dist.length = L - 1) :
    (∀ s ∈ make_spans (separate_pos dist t) L, s.1 < s.2) ∧
    List.Pairwise (fun a b : ℕ × ℕ => a.2 ≤ b.1 ∨ b.2 ≤ a.1)
      (make_spans (separate_pos dist t) L) ∧
    (∀ x, x < L ↔ ∃ s ∈ make_spans (separate_pos dist t) L, s.1 ≤ x ∧ x < s.2) ∧
    (separate_pos dist t = [] → make_spans (separate_pos dist t) L = [(0, L)]) := by
  have hb : ∀ p ∈ separate_pos dist t, p + 1 < L := by
    intro p hp
    have := separate_pos_lt_length dist t p hp
    omega
  obtain ⟨h1, h2, h3⟩ :=
    make_spans_partition (separate_pos dist t) L hL (separate_pos_sorted dist t) hb
  exact ⟨h1, h2, h3, fun he => by rw [he]; rfl⟩

/-- Witness for C6 at L = 3, dist = [0, 0], threshold 1 (no boundaries). -/
theorem C6_spans_partition_witness :
    (1 ≤ 3 ∧ ([(0 : ℚ), 0]).length = 3 - 1) ∧
    ((∀ s ∈ make_spans (separate_pos [(0 : ℚ), 0] 1) 3, s.1 < s.2) ∧
    List.Pairwise (fun a b : ℕ × ℕ => a.2 ≤ b.1 ∨ b.2 ≤ a.1)
      (make_spans (separate_pos [(0 : ℚ), 0] 1) 3) ∧
    (∀ x, x < 3 ↔
      ∃ s ∈ make_spans (separate_pos [(0 : ℚ), 0] 1) 3, s.1 ≤ x ∧ x < s.2) ∧
    (separate_pos [(0 : ℚ), 0] 1 = [] →
      make_spans (separate_pos [(0 : ℚ), 0] 1) 3 = [(0, 3)])) :=
  ⟨⟨by decide, rfl⟩, C6_spans_partition [0, 0] 1 3 (by decide) rfl⟩

/-- Python list element assignment l[i] = a: IndexError when i is out of
range, otherwise the updated list. -/
def setAt {α : Type} (l : List α) (i : ℕ) (a : α) : Option (List α) :=
  if i < l.length then some (l.set i a) else none

/-- Python grid write label_matrix[i][j] = v: read row i (IndexError when
out of range), then assign column j of that row. -/
def setCell (g : List (List ℕ)) (i j v : ℕ) : Option (List (List ℕ)) := do
  let row ← g[i]?
  let row2 ← setAt row j v
  setAt g i row2

/-- The doubly nested fill loop of add_joint_label:
for i in range(s1, e1): for j in range(s2, e2): label_matrix[i][j] = v. -/
def fillRect (g : List (List ℕ)) (s1 e1 s2 e2 v : ℕ) :
    Option (List (List ℕ)) :=
  (List.range' s1 (e1 - s1)).foldlM
    (fun g1 i =>
      (List.range' s2 (e2 - s2)).foldlM (fun g2 j => setCell g2 i j v) g1) g

/-- The entity part of add_joint_label: initialize a seq_len × seq_len grid
to the None id, then for every entity (start, end, labelId) fill the square
[start, end) × [start, end) with labelId, later entities overwriting earlier
ones at overlapping cells. -/
def add_joint_label_ent (ents : List (ℕ × ℕ × ℕ)) (noneId seqLen : ℕ) :
    Option (List (List ℕ)) :=
  ents.foldlM (fun g e => fillRect g e.1 e.2.1 e.1 e.2.1 e.2.2)
    (List.replicate seqLen (List.replicate seqLen noneId))

/-- The write loop for one span inside BioEncoder.run: set every position in
[start, end) to "I-"+label, then overwrite position start with "B-"+label.
Tags are lists of characters. -/
def writeSpanTags (tags : List (List Char)) (sp : ℕ × ℕ × List Char) :
    List (List Char) :=
  ((List.range' sp.1 (sp.2.1 - sp.1)).foldl
      (fun tg i => tg.set i ('I' :: '-' :: sp.2.2)) tags).set sp.1
    ('B' :: '-' :: sp.2.2)

/-- BioEncoder.run: one tag per token, initialized "O"; for each
(start, end, label) span assert start < end and end ≤ length, then perform
the span's writes.  A failed assert aborts the encoder, modelled by none. -/
def bio_run (spans : List (ℕ × ℕ × List Char)) (len : ℕ) :
    Option (List (List Char)) :=
  spans.foldlM
    (fun tags sp =>
      if sp.1 < sp.2.1 ∧ sp.2.1 ≤ len then some (writeSpanTags tags sp)
      else none)
    (List.replicate len ['O'])

/-- An L × L grid: L rows, each of length L. -/
def SquareGrid (L : ℕ) (g : List (List ℕ)) : Prop :=
  g.length = L ∧ ∀ row ∈ g, row.length = L

section GridLemmas

theorem setCell_eq (g : List (List ℕ)) (i j v : ℕ) :
    setCell g i j v
      = (g[i]?.bind fun row => (setAt row j v).bind fun row2 => setAt g i row2) :=
  rfl

theorem foldlM_none_iff {α β : Type} (f : β → α → Option β) (Inv : β → Prop)
    (P : α → Prop)
    (hnone : ∀ b a, Inv b → (f b a = none ↔ P a))
    (hinv : ∀ b a b', Inv b → f b a = some b' → Inv b') :
    ∀ (l : List α) (b : β), Inv b →
      (l.foldlM f b = none ↔ ∃ a ∈ l, P a) := by
  intro l
  induction l with
  | nil =>
    intro b hb
    simp [List.foldlM_nil]
  | cons a l ih =>
    intro b hb
    rw [List.foldlM_cons]
    cases hf : f b a with
    | none =>
      simp only [Option.bind_eq_bind, Option.none_bind]
      constructor
      · intro _
        exact ⟨a, List.mem_cons_self a l, (hnone b a hb).mp hf⟩
      · intro _
        trivial
    | some b' =>
      simp only [Option.bind_eq_bind, Option.some_bind]
      rw [ih b' (hinv b a b' hb hf)]
      constructor
      · rintro ⟨x, hx, hPx⟩
        exact ⟨x, List.mem_cons_of_mem _ hx, hPx⟩
      · rintro ⟨x, hx, hPx⟩
        rcases List.mem_cons.mp hx with rfl | hx'
        · exact absurd ((hnone b x hb).mpr hPx) (by simp [hf])
        · exact ⟨x, hx', hPx⟩

theorem foldlM_inv {α β : Type} (f : β → α → Option β) (Inv : β → Prop)
    (hinv : ∀ b a b', Inv b → f b a = some b' → Inv b') :
    ∀ (l : List α) (b b' : β), Inv b → l.foldlM f b = some b' → Inv b' := by
  intro l
  induction l with
  | nil =>
    intro b b' hb h
    rw [List.foldlM_nil, Option.pure_def] at h
    obtain rfl : b = b' := by simpa using h
    exact hb
  | cons a l ih =>
    intro b b' hb h
    rw [List.foldlM_cons] at h
    cases hf : f b a with
    | none =>
      rw [hf] at h
      simp only [Option.bind_eq_bind, Option.none_bind] at h
      exact absurd h (by simp)
    | some b1 =>
      rw [hf] at h
      simp only [Option.bind_eq_bind, Option.some_bind] at h
      exact ih b1 b' (hinv b a b1 hb hf) h

theorem setCell_none_iff {L : ℕ} {g : List (List ℕ)} (hg : SquareGrid L g)
    (i j v : ℕ) : setCell g i j v = none ↔ ¬(i < L ∧ j < L) := by
  obtain ⟨hlen, hrow⟩ := hg
  by_cases hi : i < L
  · have hi' : i < g.length := by omega
    have hrl : g[i].length = L := hrow _ (List.getElem_mem hi')
    rw [setCell_eq, List.getElem?_eq_getElem hi', Option.some_bind]
    by_cases hj : j < L
    · rw [setAt, if_pos (by omega), Option.some_bind, setAt, if_pos (by omega)]
      simp [hi, hj]
    · rw [setAt, if_neg (by omega), Option.none_bind]
      simp [hj]
  · rw [setCell_eq, List.getElem?_eq_none (by omega), Option.none_bind]
    simp [hi]

theorem setCell_inv {L : ℕ} {g g' : List (List ℕ)} (hg : SquareGrid L g)
    (i j v : ℕ) (h : setCell g i j v = some g') : SquareGrid L g' := by
  obtain ⟨hlen, hrow⟩ := hg
  by_cases hi : i < g.length
  · rw [setCell_eq, List.getElem?_eq_getElem hi, Option.some_bind] at h
    by_cases hj : j < g[i].length
    · rw [setAt, if_pos hj, Option.some_bind, setAt, if_pos (by simp [hi])] at h
      obtain rfl : g.set i (g[i].set j v) = g' := by simpa using h
      refine ⟨by simpa using hlen, ?_⟩
      intro row hr
      rcases List.mem_or_eq_of_mem_set hr with hr' | rfl
      · exact hrow row hr'
      · rw [List.length_set]
        exact hrow _ (List.getElem_mem hi)
    · rw [setAt, if_neg hj, Option.none_bind] at h
      exact absurd h (by simp)
  · rw [setCell_eq, List.getElem?_eq_none (by omega), Option.none_bind] at h
    exact absurd h (by simp)

theorem fillRect_sq_none_iff {L : ℕ} {g : List (List ℕ)} (hg : SquareGrid L g)
    (s e v : ℕ) : (fillRect g s e s e v = none ↔ s < e ∧ L < e) := by
  have hcols : ∀ (i : ℕ) (g1 : List (List ℕ)), SquareGrid L g1 →
      ((List.range' s (e - s)).foldlM (fun g2 j => setCell g2 i j v) g1 = none ↔
        ∃ j ∈ List.range' s (e - s), ¬(i < L ∧ j < L)) := by
    intro i g1 hg1
    exact foldlM_none_iff _ (SquareGrid L) _
      (fun b a hb => setCell_none_iff hb i a v)
      (fun b a b' hb hsome => setCell_inv hb i a v hsome)
      _ g1 hg1
  have hcolsinv : ∀ (i : ℕ) (g1 g2 : List (List ℕ)), SquareGrid L g1 →
      (List.range' s (e - s)).foldlM (fun g2 j => setCell g2 i j v) g1 = some g2 →
      SquareGrid L g2 := by
    intro i g1 g2 hg1 h
    exact foldlM_inv _ (SquareGrid L)
      (fun b a b' hb hsome => setCell_inv hb i a v hsome) _ g1 g2 hg1 h
  rw [fillRect]
  rw [foldlM_none_iff _ (SquareGrid L)
    (fun i => ∃ j ∈ List.range' s (e - s), ¬(i < L ∧ j < L))
    (fun b a hb => hcols a b hb)
    (fun b a b' hb hsome => hcolsinv a b b' hb hsome) _ g hg]
  constructor
  · rintro ⟨i, hi, j, hj, hnot⟩
    rw [List.mem_range'_1] at hi hj
    omega
  · rintro ⟨hse, hLe⟩
    refine ⟨e - 1, ?_, e - 1, ?_, by omega⟩ <;>
      rw [List.mem_range'_1] <;> omega

theorem fillRect_sq_inv {L : ℕ} {g g' : List (List ℕ)} (hg : SquareGrid L g)
    (s e v : ℕ) (h : fillRect g s e s e v = some g') : SquareGrid L g' := by
  refine foldlM_inv _ (SquareGrid L) ?_ _ g g' hg h
  intro b a b' hb hsome
  exact foldlM_inv _ (SquareGrid L)
    (fun b2 j b2' hb2 hs2 => setCell_inv hb2 a j v hs2) _ b b' hb hsome

theorem squareGrid_replicate (L noneId : ℕ) :
    SquareGrid L (List.replicate L (List.replicate L noneId)) := by
  refine ⟨by simp, ?_⟩
  intro row hr
  rw [List.eq_of_mem_replicate hr]
  simp

end GridLemmas

/-- C9 counterexample: the box-fill encoder does not reject a malformed span
with start = end: on a length-3 sentence the entity (2, 2) yields an empty
fill range, and a full all-None grid is produced with no error. -/
theorem C9_counterexample :
    add_joint_label_ent [(2, 2, 5)] 0 3
      = some [[0, 0, 0], [0, 0, 0], [0, 0, 0]] := rfl

/-- C9 amended: the BIO encoder fails fast exactly on malformed spans
(start ≥ end or end > length) and never silently clamps; the box-fill
encoder performs no validation of its own: a span with start ≥ end is
silently skipped (a grid is still produced), and it fails (with an index
error, not a validation error) exactly when some entity actually writes out
of bounds, i.e. has start < end and end > seq_len. -/
theorem C9_encoder_validation :
    (∀ (spans : List (ℕ × ℕ × List Char)) (L : ℕ),
      bio_run spans L = none ↔ ∃ sp ∈ spans, ¬(sp.1 < sp.2.1 ∧ sp.2.1 ≤ L)) ∧
    (∀ (ents : List (ℕ × ℕ × ℕ)) (noneId L : ℕ),
      add_joint_label_ent ents noneId L = none ↔
        ∃ e ∈ ents, e.1 < e.2.1 ∧ L < e.2.1) := by
  constructor
  · intro spans L
    rw [bio_run]
    exact foldlM_none_iff _ (fun _ => True) _
      (fun b a _ => by
        by_cases h : a.1 < a.2.1 ∧ a.2.1 ≤ L <;> simp [h])
      (fun _ _ _ _ _ => trivial) _ _ trivial
  · intro ents noneId L
    rw [add_joint_label_ent]
    rw [foldlM_none_iff _ (SquareGrid L) (fun e => e.1 < e.2.1 ∧ L < e.2.1)
      (fun b a hb => fillRect_sq_none_iff hb a.1 a.2.1 a.2.2)
      (fun b a b' hb hsome => fillRect_sq_inv hb a.1 a.2.1 a.2.2 hsome)
      _ _ (squareGrid_replicate L noneId)]

/-- Python t.split("-", maxsplit=1)[1]: everything after the first dash of
the tag; IndexError (none) when the tag contains no dash. -/
def labelAfterDash (t : List Char) : Option (List Char) :=
  match t.dropWhile (· ≠ '-') with
  | [] => none
  | _ :: rest => some rest

/-- One step of the part-collecting loop of BioEncoder.decode at index i and
tag t: a tag starting with B opens a new part [i]; then, if any part exists,
a tag starting with I appends i to the most recently opened part. -/
def decodeStep (parts : List (List ℕ)) (i : ℕ) (t : List Char) :
    List (List ℕ) :=
  let parts1 := if t.take 1 = ['B'] then parts ++ [[i]] else parts
  if parts1 ≠ [] ∧ t.take 1 = ['I'] then
    parts1.dropLast ++ [parts1.getLastD [] ++ [i]]
  else parts1

/-- The enumerate loop of BioEncoder.decode: fold decodeStep over the tags
with a running token index. -/
def buildPartsAux (parts : List (List ℕ)) (i : ℕ) (tags : List (List Char)) :
    List (List ℕ) :=
  match tags with
  | [] => parts
  | t :: rest => buildPartsAux (decodeStep parts i t) (i + 1) rest

/-- Emission of one span from one collected part, as in the second loop of
BioEncoder.decode: skip empty parts; otherwise start = min(indices),
end = max(indices) + 1, label = everything after the first dash of the tag
at start (an error when that tag has no dash). -/
def extractStep (tags : List (List Char)) (spans : List (ℕ × ℕ × List Char))
    (indices : List ℕ) : Option (List (ℕ × ℕ × List Char)) :=
  match indices with
  | [] => some spans
  | x :: xs =>
    (labelAfterDash (tags.getD (xs.foldl min x) [])).bind fun lb =>
      some (spans ++ [(xs.foldl min x, xs.foldl max x + 1, lb)])

/-- BioEncoder.decode: assert every tag starts with B, I or O (an error
otherwise), collect parts left to right, then emit one span per nonempty
part. -/
def bio_decode (tags : List (List Char)) :
    Option (List (ℕ × ℕ × List Char)) :=
  if ∀ t ∈ tags, t.take 1 = ['B'] ∨ t.take 1 = ['I'] ∨ t.take 1 = ['O'] then
    (buildPartsAux [] 0 tags).foldlM (extractStep tags) []
  else none

/-- Invariant of the part-collecting loop after consuming the first n tags:
the collected indices are strictly increasing across the flattened parts,
bounded by n and by the tag count, every part is nonempty, and every part
opens at a B tag. -/
def PartsInv (tags : List (List Char)) (n : ℕ) (parts : List (List ℕ)) :
    Prop :=
  List.Pairwise (· < ·) parts.flatten ∧
  (∀ x ∈ parts.flatten, x < n ∧ x < tags.length) ∧
  (∀ P ∈ parts, P ≠ []) ∧
  (∀ P ∈ parts, (tags.getD (P.headD 0) []).take 1 = ['B'])

section BioLemmas

theorem decodeStep_B (parts : List (List ℕ)) (i : ℕ) (t : List Char)
    (hB : t.take 1 = ['B']) : decodeStep parts i t = parts ++ [[i]] := by
  have hI : ¬(t.take 1 = ['I']) := by rw [hB]; decide
  simp only [decodeStep, if_pos hB]
  rw [if_neg]
  rintro ⟨-, h⟩
  exact hI h

theorem decodeStep_I (parts : List (List ℕ)) (i : ℕ) (t : List Char)
    (hI : t.take 1 = ['I']) (hne : parts ≠ []) :
    decodeStep parts i t = parts.dropLast ++ [parts.getLastD [] ++ [i]] := by
  have hB : ¬(t.take 1 = ['B']) := by rw [hI]; decide
  simp only [decodeStep, if_neg hB]
  rw [if_pos ⟨hne, hI⟩]

theorem decodeStep_skip (parts : List (List ℕ)) (i : ℕ) (t : List Char)
    (hB : ¬(t.take 1 = ['B'])) (hI : ¬(t.take 1 = ['I'])) :
    decodeStep parts i t = parts := by
  simp only [decodeStep, if_neg hB]
  rw [if_neg]
  rintro ⟨-, h⟩
  exact hI h

theorem decodeStep_I_nil (i : ℕ) (t : List Char)
    (hB : ¬(t.take 1 = ['B'])) : decodeStep [] i t = [] := by
  simp only [decodeStep, if_neg hB]
  rw [if_neg]
  rintro ⟨h, -⟩
  exact h rfl

theorem getLastD_of_ne_nil {α : Type} (parts : List α) (hne : parts ≠ [])
    (d : α) : parts.getLastD d = parts.getLast hne := by
  rw [List.getLastD_eq_getLast?, List.getLast?_eq_getLast parts hne]
  rfl

theorem flatten_snoc_update (parts : List (List ℕ)) (hne : parts ≠ [])
    (i : ℕ) :
    (parts.dropLast ++ [parts.getLastD [] ++ [i]]).flatten
      = parts.flatten ++ [i] := by
  rw [getLastD_of_ne_nil parts hne]
  conv_rhs =>
    rw [show parts = parts.dropLast ++ [parts.getLast hne] from
      (List.dropLast_append_getLast hne).symm]
  simp [List.flatten_append, List.append_assoc]

theorem headD_append_of_ne_nil {α : Type} (l l2 : List α) (hne : l ≠ [])
    (d : α) : (l ++ l2).headD d = l.headD d := by
  cases l with
  | nil => exact absurd rfl hne
  | cons a as => rfl

theorem partsInv_step (tags : List (List Char)) (n : ℕ)
    (parts : List (List ℕ)) (hinv : PartsInv tags n parts)
    (hn : n < tags.length) :
    PartsInv tags (n + 1) (decodeStep parts n (tags.getD n [])) := by
  obtain ⟨hpair, hbound, hne, hB⟩ := hinv
  by_cases htB : (tags.getD n []).take 1 = ['B']
  · rw [decodeStep_B _ _ _ htB]
    refine ⟨?_, ?_, ?_, ?_⟩
    · rw [List.flatten_append]
      simp only [List.flatten_cons, List.flatten_nil, List.append_nil]
      rw [List.pairwise_append]
      refine ⟨hpair, by simp, ?_⟩
      intro x hx y hy
      have h1 := (hbound x hx).1
      have h2 : y = n := by simpa using hy
      omega
    · intro x hx
      rw [List.flatten_append] at hx
      simp only [List.flatten_cons, List.flatten_nil, List.append_nil] at hx
      rcases List.mem_append.mp hx with hx' | hx'
      · have := hbound x hx'
        exact ⟨by omega, this.2⟩
      · have : x = n := by simpa using hx'
        subst this
        exact ⟨by omega, hn⟩
    · intro P hP
      rcases List.mem_append.mp hP with hP' | hP'
      · exact hne P hP'
      · have : P = [n] := by simpa using hP'
        subst this
        simp
    · intro P hP
      rcases List.mem_append.mp hP with hP' | hP'
      · exact hB P hP'
      · have : P = [n] := by simpa using hP'
        subst this
        simpa using htB
  · by_cases htI : (tags.getD n []).take 1 = ['I']
    · by_cases hpe : parts = []
      · subst hpe
        rw [decodeStep_I_nil _ _ htB]
        exact ⟨by simp, by simp, by simp, by simp⟩
      · have hpne : parts ≠ [] := hpe
        rw [decodeStep_I _ _ _ htI hpne]
        have hlast : parts.getLastD [] ∈ parts := by
          rw [getLastD_of_ne_nil parts hpne]
          exact List.getLast_mem hpne
        refine ⟨?_, ?_, ?_, ?_⟩
        · rw [flatten_snoc_update parts hpne]
          rw [List.pairwise_append]
          refine ⟨hpair, by simp, ?_⟩
          intro x hx y hy
          have h1 := (hbound x hx).1
          have h2 : y = n := by simpa using hy
          omega
        · intro x hx
          rw [flatten_snoc_update parts hpne] at hx
          rcases List.mem_append.mp hx with hx' | hx'
          · have := hbound x hx'
            exact ⟨by omega, this.2⟩
          · have : x = n := by simpa using hx'
            subst this
            exact ⟨by omega, hn⟩
        · intro P hP
          rcases List.mem_append.mp hP with hP' | hP'
          · exact hne P ((List.dropLast_sublist parts).subset hP')
          · have : P = parts.getLastD [] ++ [n] := by simpa using hP'
            subst this
            simp
        · intro P hP
          rcases List.mem_append.mp hP with hP' | hP'
          · exact hB P ((List.dropLast_sublist parts).subset hP')
          · have hPd : P = parts.getLastD [] ++ [n] := by simpa using hP'
            subst hPd
            rw [headD_append_of_ne_nil _ _ (hne _ hlast)]
            exact hB _ hlast
    · rw [decodeStep_skip _ _ _ htB htI]
      refine ⟨hpair, ?_, hne, hB⟩
      intro x hx
      have := hbound x hx
      exact ⟨by omega, this.2⟩

theorem buildPartsAux_inv (tags : List (List Char)) :
    ∀ (suf : List (List Char)) (n : ℕ) (parts : List (List ℕ)),
      tags.drop n = suf → PartsInv tags n parts →
      PartsInv tags (n + suf.length) (buildPartsAux parts n suf) := by
  intro suf
  induction suf with
  | nil =>
    intro n parts _ h
    simpa [buildPartsAux] using h
  | cons t rest ih =>
    intro n parts hdrop hinv
    have hlen : n < tags.length := by
      have := congrArg List.length hdrop
      simp [List.length_drop] at this
      omega
    have ht : tags.getD n [] = t := by
      have h0 : (tags.drop n)[0]? = some t := by rw [hdrop]; simp
      rw [List.getElem?_drop, Nat.add_zero] at h0
      rw [List.getD_eq_getElem?_getD, h0]
      rfl
    have hrest : tags.drop (n + 1) = rest := by
      have := List.drop_drop 1 n tags
      rw [hdrop] at this
      rw [← this]
      rfl
    have hstep := partsInv_step tags n parts hinv hlen
    rw [ht] at hstep
    have hrec := ih (n + 1) (decodeStep parts n t) hrest hstep
    have harith : n + (t :: rest).length = n + 1 + rest.length := by
      simp [List.length_cons]
      omega
    rw [harith]
    exact hrec

theorem buildParts_inv (tags : List (List Char)) :
    PartsInv tags (0 + tags.length) (buildPartsAux [] 0 tags) :=
  buildPartsAux_inv tags tags 0 [] (List.drop_zero tags)
    ⟨by simp, by simp, by simp, by simp⟩

theorem foldl_min_eq (x : ℕ) (xs : List ℕ) (h : ∀ y ∈ xs, x ≤ y) :
    xs.foldl min x = x := by
  induction xs generalizing x with
  | nil => rfl
  | cons y ys ih =>
    show ys.foldl min (min x y) = x
    rw [Nat.min_eq_left (h y (List.mem_cons_self y ys))]
    exact ih x (fun z hz => h z (List.mem_cons_of_mem _ hz))

theorem foldl_max_eq (x : ℕ) (xs : List ℕ)
    (h : List.Pairwise (· < ·) (x :: xs)) :
    xs.foldl max x = (x :: xs).getLastD 0 := by
  induction xs generalizing x with
  | nil => rfl
  | cons y ys ih =>
    have hxy : x < y :=
      (List.pairwise_cons.mp h).1 y (List.mem_cons_self y ys)
    show ys.foldl max (max x y) = _
    rw [Nat.max_eq_right (le_of_lt hxy)]
    have hy := ih y (List.pairwise_cons.mp h).2
    rw [List.getLastD_cons] at hy
    rw [List.getLastD_cons, List.getLastD_cons]
    exact hy

theorem headD_le_getLastD (P : List ℕ) (hne : P ≠ [])
    (hsort : List.Pairwise (· < ·) P) : P.headD 0 ≤ P.getLastD 0 := by
  cases P with
  | nil => exact absurd rfl hne
  | cons x xs =>
    have hmem : (x :: xs).getLastD 0 ∈ x :: xs := by
      rw [getLastD_of_ne_nil _ (by simp)]
      exact List.getLast_mem _
    rcases List.mem_cons.mp hmem with heq | hmem'
    · rw [show (x :: xs).headD 0 = x from rfl, heq]
    · exact le_of_lt ((List.pairwise_cons.mp hsort).1 _ hmem')

theorem flatten_pairwise_parts (parts : List (List ℕ))
    (h : List.Pairwise (· < ·) parts.flatten) :
    (∀ P ∈ parts, List.Pairwise (· < ·) P) ∧
    List.Pairwise (fun P Q => ∀ x ∈ P, ∀ y ∈ Q, x < y) parts := by
  induction parts with
  | nil => exact ⟨by simp, by simp⟩
  | cons P ps ih =>
    rw [List.flatten_cons, List.pairwise_append] at h
    obtain ⟨hP, hps, hcross⟩ := h
    obtain ⟨ih1, ih2⟩ := ih hps
    refine ⟨?_, ?_⟩
    · intro Q hQ
      rcases List.mem_cons.mp hQ with rfl | hQ'
      · exact hP
      · exact ih1 Q hQ'
    · rw [List.pairwise_cons]
      refine ⟨?_, ih2⟩
      intro Q hQ x hx y hy
      exact hcross x hx y (List.mem_flatten.mpr ⟨Q, hQ, hy⟩)

theorem labelAfterDash_ne_none (t : List Char) (h : '-' ∈ t) :
    labelAfterDash t ≠ none := by
  unfold labelAfterDash
  cases hd : t.dropWhile (· ≠ '-') with
  | nil =>
    rw [List.dropWhile_eq_nil_iff] at hd
    have := hd '-' h
    simp at this
  | cons a rest =>
    simp

theorem extract_general (tags : List (List Char)) :
    ∀ (parts : List (List ℕ)) (acc : List (ℕ × ℕ × List Char)),
      (∀ P ∈ parts, P ≠ [] ∧ List.Pairwise (· < ·) P ∧
        labelAfterDash (tags.getD (P.headD 0) []) ≠ none) →
      parts.foldlM (extractStep tags) acc
        = some (acc ++ parts.map (fun P => (P.headD 0, P.getLastD 0 + 1,
            (labelAfterDash (tags.getD (P.headD 0) [])).getD []))) := by
  intro parts
  induction parts with
  | nil =>
    intro acc _
    simp [List.foldlM_nil]
  | cons P ps ih =>
    intro acc hP
    obtain ⟨hne, hsort, hlbl⟩ := hP P (List.mem_cons_self P ps)
    rw [List.foldlM_cons]
    cases P with
    | nil => exact absurd rfl hne
    | cons x xs =>
      have hmin : xs.foldl min x = x :=
        foldl_min_eq x xs
          (fun y hy => le_of_lt ((List.pairwise_cons.mp hsort).1 y hy))
      have hmax : xs.foldl max x = (x :: xs).getLastD 0 := foldl_max_eq x xs hsort
      obtain ⟨lb, hlb⟩ := Option.ne_none_iff_exists.mp hlbl
      have hmin' : (x :: xs).headD 0 = x := rfl
      rw [hmin'] at hlb
      have hstep : extractStep tags acc (x :: xs)
          = some (acc ++ [(x, (x :: xs).getLastD 0 + 1, lb)]) := by
        show (labelAfterDash (tags.getD (xs.foldl min x) [])).bind _ = _
        rw [hmin, ← hlb, Option.some_bind, hmax]
      rw [hstep]
      simp only [Option.bind_eq_bind, Option.some_bind]
      rw [ih (acc ++ [(x, (x :: xs).getLastD 0 + 1, lb)])
        (fun Q hQ => hP Q (List.mem_cons_of_mem _ hQ))]
      have hfP : ((x :: xs).headD 0, (x :: xs).getLastD 0 + 1,
          (labelAfterDash (tags.getD ((x :: xs).headD 0) [])).getD [])
          = (x, (x :: xs).getLastD 0 + 1, lb) := by
        rw [hmin', ← hlb]
        rfl
      rw [List.map_cons, hfP, List.append_assoc]
      rfl

/-- Shared characterization of BioEncoder.decode on well-formed tag lists:
decoding succeeds, every emitted span opens at a B tag whose after-dash part
is the span's label, spans are nonempty intervals, and spans are in strictly
increasing, pairwise disjoint position order. -/
theorem bio_decode_char (tags : List (List Char))
    (hTagsOk : ∀ t ∈ tags, t.take 1 = ['B'] ∨ t.take 1 = ['I'] ∨ t.take 1 = ['O'])
    (hdash : ∀ t ∈ tags, (t.take 1 = ['B'] ∨ t.take 1 = ['I']) → '-' ∈ t) :
    ∃ spans, bio_decode tags = some spans ∧
      (∀ sp ∈ spans, sp.1 < sp.2.1) ∧
      List.Pairwise (fun a b : ℕ × ℕ × List Char => a.2.1 ≤ b.1 ∧ a.1 < b.1)
        spans ∧
      (∀ sp ∈ spans, (tags.getD sp.1 []).take 1 = ['B'] ∧
        labelAfterDash (tags.getD sp.1 []) = some sp.2.2) := by
  obtain ⟨hpair, hbound, hne, hB⟩ := buildParts_inv tags
  obtain ⟨hPsort, hPcross⟩ := flatten_pairwise_parts _ hpair
  have hheadmem : ∀ P ∈ buildPartsAux [] 0 tags, P.headD 0 ∈ P := by
    intro P hP
    cases P with
    | nil => exact absurd rfl (hne _ hP)
    | cons a as => exact List.mem_cons_self a as
  have hcond : ∀ P ∈ buildPartsAux [] 0 tags, P ≠ [] ∧
      List.Pairwise (· < ·) P ∧
      labelAfterDash (tags.getD (P.headD 0) []) ≠ none := by
    intro P hP
    refine ⟨hne P hP, hPsort P hP, ?_⟩
    have hhf : P.headD 0 ∈ (buildPartsAux [] 0 tags).flatten :=
      List.mem_flatten.mpr ⟨P, hP, hheadmem P hP⟩
    have hlt := (hbound _ hhf).2
    have hmem : tags.getD (P.headD 0) [] ∈ tags := by
      rw [List.getD_eq_getElem _ _ hlt]
      exact List.getElem_mem hlt
    exact labelAfterDash_ne_none _ (hdash _ hmem (Or.inl (hB P hP)))
  have hdec : bio_decode tags
      = some ((buildPartsAux [] 0 tags).map
          (fun P => (P.headD 0, P.getLastD 0 + 1,
            (labelAfterDash (tags.getD (P.headD 0) [])).getD []))) := by
    rw [bio_decode, if_pos hTagsOk, extract_general tags _ [] hcond]
    rfl
  refine ⟨_, hdec, ?_, ?_, ?_⟩
  · intro sp hsp
    obtain ⟨P, hP, rfl⟩ := List.mem_map.mp hsp
    have := headD_le_getLastD P (hne P hP) (hPsort P hP)
    show P.headD 0 < P.getLastD 0 + 1
    omega
  · rw [List.pairwise_map]
    refine hPcross.imp_of_mem ?_
    intro P Q hP hQ hcr
    have hPhead := hheadmem P hP
    have hQhead := hheadmem Q hQ
    have hPlast : P.getLastD 0 ∈ P := by
      rw [getLastD_of_ne_nil _ (hne P hP)]
      exact List.getLast_mem _
    have h1 := hcr _ hPlast _ hQhead
    have h2 := hcr _ hPhead _ hQhead
    refine ⟨?_, ?_⟩
    · show P.getLastD 0 + 1 ≤ Q.headD 0
      omega
    · show P.headD 0 < Q.headD 0
      exact h2
  · intro sp hsp
    obtain ⟨P, hP, rfl⟩ := List.mem_map.mp hsp
    obtain ⟨lb, hlb⟩ :=
      Option.ne_none_iff_exists.mp (hcond P hP).2.2
    refine ⟨hB P hP, ?_⟩
    show labelAfterDash (tags.getD (P.headD 0) []) = some _
    rw [← hlb]
    rfl

theorem foldl_set_length {α : Type} (v : α) :
    ∀ (idxs : List ℕ) (t : List α),
      (idxs.foldl (fun tg i => tg.set i v) t).length = t.length := by
  intro idxs
  induction idxs with
  | nil => intro t; rfl
  | cons i is ih =>
    intro t
    show (is.foldl _ (t.set i v)).length = _
    rw [ih (t.set i v), List.length_set]

theorem writeSpanTags_length (tags : List (List Char))
    (sp : ℕ × ℕ × List Char) :
    (writeSpanTags tags sp).length = tags.length := by
  rw [writeSpanTags, List.length_set, foldl_set_length]

theorem getD_set {α : Type} (t : List α) (i p : ℕ) (v d : α) :
    (t.set i v).getD p d
      = if i = p ∧ i < t.length then v else t.getD p d := by
  rw [List.getD_eq_getElem?_getD, List.getD_eq_getElem?_getD,
    List.getElem?_set]
  by_cases h1 : i = p
  · subst h1
    by_cases h2 : i < t.length
    · rw [if_pos rfl, if_pos h2, if_pos ⟨rfl, h2⟩]
      rfl
    · rw [if_pos rfl, if_neg h2, if_neg (fun hc => h2 hc.2),
        List.getElem?_eq_none (by omega)]
  · rw [if_neg h1, if_neg (fun hc => h1 hc.1)]

theorem foldl_set_getD {α : Type} (v d : α) :
    ∀ (idxs : List ℕ) (t : List α) (p : ℕ),
      (idxs.foldl (fun tg i => tg.set i v) t).getD p d
        = if p ∈ idxs ∧ p < t.length then v else t.getD p d := by
  intro idxs
  induction idxs with
  | nil => intro t p; simp
  | cons i is ih =>
    intro t p
    show (is.foldl _ (t.set i v)).getD p d = _
    rw [ih (t.set i v) p, List.length_set]
    by_cases hmem : p ∈ is ∧ p < t.length
    · rw [if_pos hmem, if_pos ⟨List.mem_cons_of_mem _ hmem.1, hmem.2⟩]
    · rw [if_neg hmem, getD_set]
      by_cases hip : i = p ∧ i < t.length
      · rw [if_pos hip, if_pos ⟨hip.1 ▸ List.mem_cons_self i is, by omega⟩]
      · rw [if_neg hip, if_neg ?_]
        rintro ⟨hpm, hpl⟩
        rcases List.mem_cons.mp hpm with rfl | hpm'
        · exact hip ⟨rfl, hpl⟩
        · exact hmem ⟨hpm', hpl⟩

theorem writeSpanTags_getD (tags : List (List Char)) (s e : ℕ)
    (lb : List Char) (p : ℕ) (hse : s < e) (hlen : e ≤ tags.length) :
    (writeSpanTags tags (s, e, lb)).getD p []
      = if p = s then 'B' :: '-' :: lb
        else if s ≤ p ∧ p < e then 'I' :: '-' :: lb
        else tags.getD p [] := by
  rw [writeSpanTags]
  dsimp only
  rw [getD_set, foldl_set_length]
  by_cases hps : p = s
  · subst hps
    rw [if_pos ⟨rfl, by omega⟩, if_pos rfl]
  · rw [if_neg (fun hc => hps hc.1.symm), if_neg hps, foldl_set_getD]
    by_cases hin : s ≤ p ∧ p < e
    · rw [if_pos ⟨List.mem_range'_1.mpr ⟨hin.1, by omega⟩, by omega⟩,
        if_pos hin]
    · rw [if_neg ?_, if_neg hin]
      rintro ⟨hpm, -⟩
      have := List.mem_range'_1.mp hpm
      exact hin ⟨this.1, by omega⟩

theorem bio_run_eq_foldl (len : ℕ) :
    ∀ (spans : List (ℕ × ℕ × List Char)) (init : List (List Char)),
      (∀ sp ∈ spans, sp.1 < sp.2.1 ∧ sp.2.1 ≤ len) →
      spans.foldlM (fun tags sp =>
          if sp.1 < sp.2.1 ∧ sp.2.1 ≤ len then some (writeSpanTags tags sp)
          else none) init
        = some (spans.foldl writeSpanTags init) := by
  intro spans
  induction spans with
  | nil =>
    intro init _
    simp [List.foldlM_nil]
  | cons sp rest ih =>
    intro init hok
    rw [List.foldlM_cons, List.foldl_cons,
      if_pos (hok sp (List.mem_cons_self sp rest))]
    simp only [Option.bind_eq_bind, Option.some_bind]
    exact ih (writeSpanTags init sp)
      (fun q hq => hok q (List.mem_cons_of_mem _ hq))

theorem bio_run_some (spans : List (ℕ × ℕ × List Char)) (len : ℕ)
    (hok : ∀ sp ∈ spans, sp.1 < sp.2.1 ∧ sp.2.1 ≤ len) :
    bio_run spans len
      = some (spans.foldl writeSpanTags (List.replicate len ['O'])) := by
  rw [bio_run]
  exact bio_run_eq_foldl len spans _ hok

end BioLemmas

/-- Decidable test that token position p lies inside the half-open span
sp. -/
def spanContains (sp : ℕ × ℕ × List Char) (p : ℕ) : Bool :=
  decide (sp.1 ≤ p) && decide (p < sp.2.1)

/-- Disjointness of two half-open spans (labels irrelevant). -/
def SpanDisj (a b : ℕ × ℕ × List Char) : Prop :=
  a.2.1 ≤ b.1 ∨ b.2.1 ≤ a.1

/-- The tag that the BIO writes of a span list leave at position p: the B or
I tag of the first listed span containing p, or the fallback tag. -/
def pointTag (spans : List (ℕ × ℕ × List Char)) (dflt : List Char)
    (p : ℕ) : List Char :=
  match spans.find? (fun sp => spanContains sp p) with
  | some sp =>
    if p = sp.1 then 'B' :: '-' :: sp.2.2 else 'I' :: '-' :: sp.2.2
  | none => dflt

/-- The canonical tag list of a start-sorted chained span list: O-gaps
between spans, each span contributing one "B-label" tag then "I-label"
repeats. -/
def canonTags : ℕ → List (ℕ × ℕ × List Char) → ℕ → List (List Char)
  | pos, [], L => List.replicate (L - pos) ['O']
  | pos, (s, e, lb) :: rest, L =>
      List.replicate (s - pos) ['O']
        ++ ('B' :: '-' :: lb)
          :: (List.replicate (e - s - 1) ('I' :: '-' :: lb)
            ++ canonTags e rest L)

/-- Spans listed left to right: every span starts at or after pos, is
nonempty, and ends by L, with successive spans non-overlapping in order. -/
def SpanChain : ℕ → List (ℕ × ℕ × List Char) → ℕ → Prop
  | pos, [], L => pos ≤ L
  | pos, (s, e, _) :: rest, L => pos ≤ s ∧ s < e ∧ SpanChain e rest L

section CanonLemmas

theorem spanContains_iff (sp : ℕ × ℕ × List Char) (p : ℕ) :
    spanContains sp p = true ↔ sp.1 ≤ p ∧ p < sp.2.1 := by
  simp [spanContains]

theorem pointTag_eq_of_find? {spans : List (ℕ × ℕ × List Char)} {p : ℕ}
    {sp : ℕ × ℕ × List Char}
    (h : spans.find? (fun q => spanContains q p) = some sp)
    (d : List Char) :
    pointTag spans d p
      = if p = sp.1 then 'B' :: '-' :: sp.2.2 else 'I' :: '-' :: sp.2.2 := by
  unfold pointTag
  rw [h]

theorem pointTag_eq_of_none {spans : List (ℕ × ℕ × List Char)} {p : ℕ}
    (h : spans.find? (fun q => spanContains q p) = none) (d : List Char) :
    pointTag spans d p = d := by
  unfold pointTag
  rw [h]

theorem find?_contains_cons_neg {x : ℕ × ℕ × List Char} {p : ℕ}
    (spans : List (ℕ × ℕ × List Char)) (h : ¬(spanContains x p = true)) :
    (x :: spans).find? (fun sp => spanContains sp p)
      = spans.find? (fun sp => spanContains sp p) :=
  List.find?_cons_of_neg spans h

theorem find?_contains_cons_pos {x : ℕ × ℕ × List Char} {p : ℕ}
    (spans : List (ℕ × ℕ × List Char)) (h : spanContains x p = true) :
    (x :: spans).find? (fun sp => spanContains sp p) = some x :=
  List.find?_cons_of_pos spans h

theorem find?_contains_eq_none {l : List (ℕ × ℕ × List Char)} {p : ℕ}
    (h : ∀ x ∈ l, ¬(spanContains x p = true)) :
    l.find? (fun sp => spanContains sp p) = none :=
  List.find?_eq_none.mpr h

theorem find?_contains_prop {l : List (ℕ × ℕ × List Char)} {p : ℕ}
    {sp : ℕ × ℕ × List Char}
    (h : l.find? (fun q => spanContains q p) = some sp) :
    spanContains sp p = true := by
  have h2 := List.find?_some h
  exact h2

theorem pointTag_cons_of_neg {x : ℕ × ℕ × List Char} {p : ℕ}
    (h : ¬(spanContains x p = true)) (spans : List (ℕ × ℕ × List Char))
    (d : List Char) :
    pointTag (x :: spans) d p = pointTag spans d p := by
  unfold pointTag
  rw [find?_contains_cons_neg spans h]

theorem foldl_write_length :
    ∀ (spans : List (ℕ × ℕ × List Char)) (tags : List (List Char)),
      (spans.foldl writeSpanTags tags).length = tags.length := by
  intro spans
  induction spans with
  | nil => intro tags; rfl
  | cons sp rest ih =>
    intro tags
    rw [List.foldl_cons, ih, writeSpanTags_length]

theorem foldl_write_getD (len : ℕ) :
    ∀ (spans : List (ℕ × ℕ × List Char)) (tags : List (List Char)),
      tags.length = len →
      (∀ sp ∈ spans, sp.1 < sp.2.1 ∧ sp.2.1 ≤ len) →
      List.Pairwise SpanDisj spans →
      ∀ p, (spans.foldl writeSpanTags tags).getD p []
        = pointTag spans (tags.getD p []) p := by
  intro spans
  induction spans with
  | nil => intro tags _ _ _ p; rfl
  | cons x rest ih =>
    obtain ⟨s, e, lb⟩ := x
    intro tags hlen hok hdisj p
    have hx := hok (s, e, lb) (List.mem_cons_self _ rest)
    dsimp only at hx
    rw [List.foldl_cons,
      ih (writeSpanTags tags (s, e, lb))
        (by rw [writeSpanTags_length, hlen])
        (fun q hq => hok q (List.mem_cons_of_mem _ hq))
        (List.pairwise_cons.mp hdisj).2 p]
    cases hf : rest.find? (fun sp => spanContains sp p) with
    | some sp =>
      have hcont : sp.1 ≤ p ∧ p < sp.2.1 :=
        (spanContains_iff sp p).mp (find?_contains_prop hf)
      have hspmem := List.mem_of_find?_eq_some hf
      have hdisjx : SpanDisj (s, e, lb) sp :=
        (List.pairwise_cons.mp hdisj).1 sp hspmem
      have hnotx : ¬(spanContains (s, e, lb) p = true) := by
        rw [spanContains_iff]
        dsimp only
        rcases hdisjx with h | h
        · have h' : e ≤ sp.1 := h
          omega
        · have h' : sp.2.1 ≤ s := h
          omega
      rw [pointTag_eq_of_find? hf, pointTag_cons_of_neg hnotx,
        pointTag_eq_of_find? hf]
    | none =>
      rw [pointTag_eq_of_none hf,
        writeSpanTags_getD tags s e lb p hx.1 (by omega)]
      by_cases hxc : spanContains (s, e, lb) p = true
      · have hcx := (spanContains_iff _ p).mp hxc
        dsimp only at hcx
        have hfind : ((s, e, lb) :: rest).find?
            (fun sp => spanContains sp p) = some (s, e, lb) :=
          find?_contains_cons_pos rest hxc
        rw [pointTag_eq_of_find? hfind]
        dsimp only
        by_cases hps : p = s
        · rw [if_pos hps, if_pos hps]
        · rw [if_neg hps, if_neg hps, if_pos (by omega)]
      · have hncx : ¬(s ≤ p ∧ p < e) := by
          rw [spanContains_iff] at hxc
          exact hxc
        rw [pointTag_cons_of_neg hxc, pointTag_eq_of_none hf,
          if_neg (by omega), if_neg hncx]

theorem find?_contains_unique (p : ℕ) :
    ∀ (l : List (ℕ × ℕ × List Char)), List.Pairwise SpanDisj l →
      ∀ x ∈ l, spanContains x p = true →
      l.find? (fun sp => spanContains sp p) = some x := by
  intro l
  induction l with
  | nil =>
    intro _ x hx
    exact absurd hx (by simp)
  | cons y rest ih =>
    intro hdisj x hx hcx
    rcases List.mem_cons.mp hx with rfl | hx'
    · exact find?_contains_cons_pos rest hcx
    · have hyx : SpanDisj y x := (List.pairwise_cons.mp hdisj).1 x hx'
      have hyc : ¬(spanContains y p = true) := by
        rw [spanContains_iff] at hcx ⊢
        rcases hyx with h | h <;> omega
      rw [find?_contains_cons_neg rest hyc]
      exact ih (List.pairwise_cons.mp hdisj).2 x hx' hcx

theorem pointTag_perm (spans sorted : List (ℕ × ℕ × List Char))
    (hperm : sorted.Perm spans)
    (hdisj : List.Pairwise SpanDisj spans) (d : List Char) (p : ℕ) :
    pointTag spans d p = pointTag sorted d p := by
  have hdisj' : List.Pairwise SpanDisj sorted :=
    (hperm.pairwise_iff (fun {a b} h => Or.symm h)).mpr hdisj
  by_cases hex : ∃ x ∈ spans, spanContains x p = true
  · obtain ⟨x, hx, hcx⟩ := hex
    rw [pointTag_eq_of_find? (find?_contains_unique p spans hdisj x hx hcx) d,
      pointTag_eq_of_find? (find?_contains_unique p sorted hdisj' x
        (hperm.mem_iff.mpr hx) hcx) d]
  · have h1 : spans.find? (fun sp => spanContains sp p) = none :=
      find?_contains_eq_none (fun q hq hc => hex ⟨q, hq, hc⟩)
    have h2 : sorted.find? (fun sp => spanContains sp p) = none :=
      find?_contains_eq_none
        (fun q hq hc => hex ⟨q, hperm.mem_iff.mp hq, hc⟩)
    rw [pointTag_eq_of_none h1, pointTag_eq_of_none h2]

theorem spanChain_le :
    ∀ (spans : List (ℕ × ℕ × List Char)) (pos L : ℕ),
      SpanChain pos spans L → pos ≤ L := by
  intro spans
  induction spans with
  | nil => intro pos L h; exact h
  | cons x rest ih =>
    obtain ⟨s, e, lb⟩ := x
    intro pos L h
    obtain ⟨h1, h2, h3⟩ := h
    have := ih e L h3
    omega

theorem spanChain_mem :
    ∀ (spans : List (ℕ × ℕ × List Char)) (pos L : ℕ),
      SpanChain pos spans L →
      ∀ sp ∈ spans, pos ≤ sp.1 ∧ sp.1 < sp.2.1 ∧ sp.2.1 ≤ L := by
  intro spans
  induction spans with
  | nil => intro pos L _ sp hsp; exact absurd hsp (by simp)
  | cons x rest ih =>
    obtain ⟨s, e, lb⟩ := x
    intro pos L h sp hsp
    obtain ⟨h1, h2, h3⟩ := h
    rcases List.mem_cons.mp hsp with rfl | hsp'
    · exact ⟨h1, h2, spanChain_le rest e L h3⟩
    · have := ih e L h3 sp hsp'
      refine ⟨by omega, this.2.1, this.2.2⟩

theorem canonTags_length :
    ∀ (spans : List (ℕ × ℕ × List Char)) (pos L : ℕ),
      SpanChain pos spans L → (canonTags pos spans L).length = L - pos := by
  intro spans
  induction spans with
  | nil =>
    intro pos L h
    simp [canonTags]
  | cons x rest ih =>
    obtain ⟨s, e, lb⟩ := x
    intro pos L h
    obtain ⟨h1, h2, h3⟩ := h
    have he := spanChain_le rest e L h3
    show (List.replicate (s - pos) ['O']
        ++ ('B' :: '-' :: lb)
          :: (List.replicate (e - s - 1) ('I' :: '-' :: lb)
            ++ canonTags e rest L)).length = L - pos
    rw [List.length_append, List.length_cons, List.length_append,
      List.length_replicate, List.length_replicate, ih e L h3]
    omega

theorem canonTags_getD :
    ∀ (spans : List (ℕ × ℕ × List Char)) (pos L p : ℕ),
      SpanChain pos spans L → pos ≤ p → p < L →
      (canonTags pos spans L).getD (p - pos) [] = pointTag spans ['O'] p := by
  intro spans
  induction spans with
  | nil =>
    intro pos L p h hp hpL
    show (List.replicate (L - pos) ['O']).getD (p - pos) [] = _
    rw [List.getD_eq_getElem?_getD, List.getElem?_replicate,
      if_pos (by omega)]
    rfl
  | cons x rest ih =>
    obtain ⟨s, e, lb⟩ := x
    intro pos L p h hp hpL
    obtain ⟨h1, h2, h3⟩ := h
    have hrest_ge : ∀ sp ∈ rest, e ≤ sp.1 :=
      fun sp hsp => (spanChain_mem rest e L h3 sp hsp).1
    show (List.replicate (s - pos) ['O']
        ++ ('B' :: '-' :: lb)
          :: (List.replicate (e - s - 1) ('I' :: '-' :: lb)
            ++ canonTags e rest L)).getD (p - pos) [] = _
    by_cases hps : p < s
    · rw [List.getD_append _ _ _ _ (by rw [List.length_replicate]; omega),
        List.getD_eq_getElem?_getD, List.getElem?_replicate,
        if_pos (by omega)]
      have hnone : ((s, e, lb) :: rest).find?
          (fun sp => spanContains sp p) = none := by
        apply find?_contains_eq_none
        intro q hq
        rcases List.mem_cons.mp hq with rfl | hq'
        · rw [spanContains_iff]
          dsimp only
          omega
        · have := hrest_ge q hq'
          rw [spanContains_iff]
          omega
      rw [pointTag_eq_of_none hnone]
      rfl
    · rw [List.getD_append_right _ _ _ _
        (by rw [List.length_replicate]; omega), List.length_replicate]
      have hidx : p - pos - (s - pos) = p - s := by omega
      rw [hidx]
      by_cases hpe : p < e
      · have hfind : ((s, e, lb) :: rest).find?
            (fun sp => spanContains sp p) = some (s, e, lb) :=
          find?_contains_cons_pos rest
            (by rw [spanContains_iff]; dsimp only; omega)
        rw [pointTag_eq_of_find? hfind]
        dsimp only
        by_cases hpss : p = s
        · subst hpss
          rw [Nat.sub_self, List.getD_cons_zero, if_pos rfl]
        · have h1' : p - s = (p - s - 1) + 1 := by omega
          rw [h1', List.getD_cons_succ,
            List.getD_append _ _ _ _ (by rw [List.length_replicate]; omega),
            List.getD_eq_getElem?_getD, List.getElem?_replicate,
            if_pos (by omega), if_neg hpss]
          rfl
      · have h1' : p - s = (p - s - 1) + 1 := by omega
        rw [h1', List.getD_cons_succ,
          List.getD_append_right _ _ _ _
            (by rw [List.length_replicate]; omega), List.length_replicate]
        have h2' : p - s - 1 - (e - s - 1) = p - e := by omega
        rw [h2', ih e L p h3 (by omega) hpL]
        have hxc : ¬(spanContains (s, e, lb) p = true) := by
          rw [spanContains_iff]
          dsimp only
          omega
        rw [pointTag_cons_of_neg hxc]

theorem run_eq_canonTags (spans sorted : List (ℕ × ℕ × List Char)) (L : ℕ)
    (hperm : sorted.Perm spans)
    (hok : ∀ sp ∈ spans, sp.1 < sp.2.1 ∧ sp.2.1 ≤ L)
    (hdisj : List.Pairwise SpanDisj spans)
    (hchain : SpanChain 0 sorted L) :
    spans.foldl writeSpanTags (List.replicate L ['O'])
      = canonTags 0 sorted L := by
  apply List.ext_getElem
  · rw [foldl_write_length, List.length_replicate,
      canonTags_length sorted 0 L hchain]
    omega
  · intro n h1 h2
    have hnL : n < L := by
      rw [foldl_write_length, List.length_replicate] at h1
      exact h1
    rw [← List.getD_eq_getElem _ [] h1, ← List.getD_eq_getElem _ [] h2]
    rw [foldl_write_getD L spans _ (by rw [List.length_replicate]) hok
      hdisj n]
    have hcg := canonTags_getD sorted 0 L n hchain (Nat.zero_le n) hnL
    rw [show n - 0 = n from rfl] at hcg
    rw [hcg]
    have hrep : (List.replicate L ['O']).getD n [] = ['O'] := by
      rw [List.getD_eq_getElem?_getD, List.getElem?_replicate,
        if_pos hnL]
      rfl
    rw [hrep]
    exact pointTag_perm spans sorted hperm hdisj ['O'] n

end CanonLemmas

section BioLemmas2

theorem buildPartsAux_noB (suf : List (List Char))
    (h : ∀ t ∈ suf, ¬(t.take 1 = ['B'])) :
    ∀ n, buildPartsAux [] n suf = [] := by
  induction suf with
  | nil => intro n; rfl
  | cons t rest ih =>
    intro n
    show buildPartsAux (decodeStep [] n t) (n + 1) rest = []
    rw [decodeStep_I_nil _ _ (h t (List.mem_cons_self t rest))]
    exact ih (fun u hu => h u (List.mem_cons_of_mem _ hu)) (n + 1)

theorem buildPartsAux_append (t2 : List (List Char)) :
    ∀ (t1 : List (List Char)) (parts : List (List ℕ)) (i : ℕ),
      buildPartsAux parts i (t1 ++ t2)
        = buildPartsAux (buildPartsAux parts i t1) (i + t1.length) t2 := by
  intro t1
  induction t1 with
  | nil =>
    intro parts i
    show buildPartsAux parts i t2 = buildPartsAux parts (i + 0) t2
    rw [Nat.add_zero]
  | cons t ts ih =>
    intro parts i
    show buildPartsAux (decodeStep parts i t) (i + 1) (ts ++ t2) = _
    rw [ih (decodeStep parts i t) (i + 1)]
    have harith : i + 1 + ts.length = i + (t :: ts).length := by
      rw [List.length_cons]
      omega
    rw [harith]
    rfl

theorem buildPartsAux_O :
    ∀ (g : ℕ) (parts : List (List ℕ)) (i : ℕ),
      buildPartsAux parts i (List.replicate g ['O']) = parts := by
  intro g
  induction g with
  | zero => intro parts i; rfl
  | succ n ih =>
    intro parts i
    show buildPartsAux (decodeStep parts i ['O']) (i + 1)
        (List.replicate n ['O']) = parts
    rw [decodeStep_skip _ _ _ (by decide) (by decide), ih]

theorem buildPartsAux_I (lb : List Char) :
    ∀ (m : ℕ) (Q : List (List ℕ)) (R : List ℕ) (i : ℕ),
      buildPartsAux (Q ++ [R]) i (List.replicate m ('I' :: '-' :: lb))
        = Q ++ [R ++ List.range' i m] := by
  intro m
  induction m with
  | zero =>
    intro Q R i
    show Q ++ [R] = Q ++ [R ++ []]
    rw [List.append_nil]
  | succ n ih =>
    intro Q R i
    show buildPartsAux (decodeStep (Q ++ [R]) i ('I' :: '-' :: lb)) (i + 1)
        (List.replicate n ('I' :: '-' :: lb)) = _
    rw [decodeStep_I (Q ++ [R]) i ('I' :: '-' :: lb) rfl (by simp),
      List.dropLast_concat, List.getLastD_concat,
      ih Q (R ++ [i]) (i + 1), List.append_assoc, List.range'_succ]
    rfl

theorem range'_cons_of_lt (s e : ℕ) (h : s < e) :
    List.range' s (e - s) = s :: List.range' (s + 1) (e - s - 1) := by
  have h2 : e - s = (e - s - 1) + 1 := by omega
  rw [h2, List.range'_succ, Nat.add_sub_cancel]

theorem buildPartsAux_block (lb : List Char) (s e : ℕ) (hse : s < e)
    (parts : List (List ℕ)) :
    buildPartsAux parts s
        (('B' :: '-' :: lb)
          :: List.replicate (e - s - 1) ('I' :: '-' :: lb))
      = parts ++ [List.range' s (e - s)] := by
  show buildPartsAux (decodeStep parts s ('B' :: '-' :: lb)) (s + 1)
      (List.replicate (e - s - 1) ('I' :: '-' :: lb)) = _
  rw [decodeStep_B parts s ('B' :: '-' :: lb) rfl,
    buildPartsAux_I lb (e - s - 1) parts [s] (s + 1),
    range'_cons_of_lt s e hse]
  rfl

theorem buildPartsAux_canon :
    ∀ (spans : List (ℕ × ℕ × List Char)) (pos L : ℕ)
      (parts : List (List ℕ)), SpanChain pos spans L →
      buildPartsAux parts pos (canonTags pos spans L)
        = parts ++ spans.map (fun sp => List.range' sp.1 (sp.2.1 - sp.1)) := by
  intro spans
  induction spans with
  | nil =>
    intro pos L parts _
    show buildPartsAux parts pos (List.replicate (L - pos) ['O'])
      = parts ++ []
    rw [buildPartsAux_O, List.append_nil]
  | cons x rest ih =>
    obtain ⟨s, e, lb⟩ := x
    intro pos L parts h
    obtain ⟨h1, h2, h3⟩ := h
    show buildPartsAux parts pos
        (List.replicate (s - pos) ['O']
          ++ ('B' :: '-' :: lb)
            :: (List.replicate (e - s - 1) ('I' :: '-' :: lb)
              ++ canonTags e rest L)) = _
    rw [buildPartsAux_append, buildPartsAux_O, List.length_replicate]
    have hpos : pos + (s - pos) = s := by omega
    rw [hpos]
    rw [show ('B' :: '-' :: lb)
          :: (List.replicate (e - s - 1) ('I' :: '-' :: lb)
            ++ canonTags e rest L)
        = (('B' :: '-' :: lb)
            :: List.replicate (e - s - 1) ('I' :: '-' :: lb))
          ++ canonTags e rest L from rfl]
    rw [buildPartsAux_append, buildPartsAux_block lb s e h2 parts]
    have hlen : s + (('B' :: '-' :: lb)
        :: List.replicate (e - s - 1) ('I' :: '-' :: lb)).length = e := by
      rw [List.length_cons, List.length_replicate]
      omega
    rw [hlen, ih e L (parts ++ [List.range' s (e - s)]) h3,
      List.append_assoc]
    rfl

theorem canonTags_tags_ok :
    ∀ (spans : List (ℕ × ℕ × List Char)) (pos L : ℕ),
      ∀ t ∈ canonTags pos spans L,
        t.take 1 = ['B'] ∨ t.take 1 = ['I'] ∨ t.take 1 = ['O'] := by
  intro spans
  induction spans with
  | nil =>
    intro pos L t ht
    have h := List.eq_of_mem_replicate ht
    subst h
    right; right; rfl
  | cons x rest ih =>
    obtain ⟨s, e, lb⟩ := x
    intro pos L t ht
    have ht' : t ∈ List.replicate (s - pos) ['O']
        ++ ('B' :: '-' :: lb)
          :: (List.replicate (e - s - 1) ('I' :: '-' :: lb)
            ++ canonTags e rest L) := ht
    rcases List.mem_append.mp ht' with h | h
    · rw [List.eq_of_mem_replicate h]
      right; right; rfl
    · rcases List.mem_cons.mp h with rfl | h'
      · left; rfl
      · rcases List.mem_append.mp h' with h2 | h2
        · rw [List.eq_of_mem_replicate h2]
          right; left; rfl
        · exact ih e L t h2

theorem range'_getLastD :
    ∀ (n s : ℕ), (List.range' s (n + 1)).getLastD 0 = s + n := by
  intro n
  induction n with
  | zero => intro s; rfl
  | succ m ih =>
    intro s
    rw [List.range'_succ, List.getLastD_cons, List.range'_succ,
      List.getLastD_cons]
    have h := ih (s + 1)
    rw [List.range'_succ, List.getLastD_cons] at h
    rw [h]
    omega

theorem spanChain_build :
    ∀ (l : List (ℕ × ℕ × List Char)) (pos L : ℕ),
      pos ≤ L →
      (∀ sp ∈ l, pos ≤ sp.1 ∧ sp.1 < sp.2.1 ∧ sp.2.1 ≤ L) →
      List.Pairwise (fun a b : ℕ × ℕ × List Char => a.1 ≤ b.1) l →
      List.Pairwise SpanDisj l →
      SpanChain pos l L := by
  intro l
  induction l with
  | nil =>
    intro pos L h _ _ _
    exact h
  | cons x rest ih =>
    obtain ⟨s, e, lb⟩ := x
    intro pos L hpL hmem hsort hdisj
    have hx := hmem (s, e, lb) (List.mem_cons_self _ _)
    dsimp only at hx
    refine ⟨hx.1, hx.2.1, ?_⟩
    apply ih e L hx.2.2
    · intro sp hsp
      have hm := hmem sp (List.mem_cons_of_mem _ hsp)
      have hs' : s ≤ sp.1 := (List.pairwise_cons.mp hsort).1 sp hsp
      have hd := (List.pairwise_cons.mp hdisj).1 sp hsp
      refine ⟨?_, hm.2.1, hm.2.2⟩
      rcases hd with h | h
      · have h' : e ≤ sp.1 := h
        exact h'
      · have h' : sp.2.1 ≤ s := h
        have h2 := hm.2.1
        omega
    · exact (List.pairwise_cons.mp hsort).2
    · exact (List.pairwise_cons.mp hdisj).2

theorem labelAfterDash_B (lb : List Char) :
    labelAfterDash ('B' :: '-' :: lb) = some lb := rfl

end BioLemmas2

/-- C8: for every list of valid spans (start < end ≤ L) that are pairwise
disjoint and contain no two adjacent spans with the same label, encoding
with BioEncoder.run and then decoding with BioEncoder.decode succeeds and
returns exactly the input spans as a set (decode lists them sorted by
start). -/
theorem C8_bio_roundtrip (spans : List (ℕ × ℕ × List Char)) (L : ℕ)
    (hvalid : ∀ sp ∈ spans, sp.1 < sp.2.1 ∧ sp.2.1 ≤ L)
    (hdisj : List.Pairwise SpanDisj spans)
    (hadj : ∀ a ∈ spans, ∀ b ∈ spans, a.2.1 = b.1 → a.2.2 ≠ b.2.2) :
    ∃ tags spansOut, bio_run spans L = some tags ∧
      bio_decode tags = some spansOut ∧
      ∀ sp, sp ∈ spansOut ↔ sp ∈ spans := by
  haveI : IsTotal (ℕ × ℕ × List Char)
      (fun a b : ℕ × ℕ × List Char => a.1 ≤ b.1) :=
    ⟨fun a b => Nat.le_total a.1 b.1⟩
  haveI : IsTrans (ℕ × ℕ × List Char)
      (fun a b : ℕ × ℕ × List Char => a.1 ≤ b.1) :=
    ⟨fun a b c hab hbc => le_trans hab hbc⟩
  set sorted :=
    List.insertionSort (fun a b : ℕ × ℕ × List Char => a.1 ≤ b.1) spans
    with hsorteddef
  have hperm : sorted.Perm spans := List.perm_insertionSort _ spans
  have hsortpair :
      List.Pairwise (fun a b : ℕ × ℕ × List Char => a.1 ≤ b.1) sorted :=
    List.sorted_insertionSort _ spans
  have hmem' : ∀ sp ∈ sorted, 0 ≤ sp.1 ∧ sp.1 < sp.2.1 ∧ sp.2.1 ≤ L := by
    intro sp hsp
    have h := hvalid sp (hperm.mem_iff.mp hsp)
    exact ⟨Nat.zero_le _, h.1, h.2⟩
  have hdisj' : List.Pairwise SpanDisj sorted :=
    (hperm.pairwise_iff (fun {a b} h => Or.symm h)).mpr hdisj
  have hchain : SpanChain 0 sorted L :=
    spanChain_build sorted 0 L (Nat.zero_le L) hmem' hsortpair hdisj'
  have hrun := bio_run_some spans L hvalid
  have htagseq : spans.foldl writeSpanTags (List.replicate L ['O'])
      = canonTags 0 sorted L :=
    run_eq_canonTags spans sorted L hperm hvalid hdisj hchain
  have hspan : ∀ sp ∈ sorted, sp.1 < sp.2.1 ∧ sp.2.1 ≤ L :=
    fun sp hsp => ⟨(hmem' sp hsp).2.1, (hmem' sp hsp).2.2⟩
  have hstart : ∀ sp ∈ sorted,
      (canonTags 0 sorted L).getD sp.1 [] = 'B' :: '-' :: sp.2.2 := by
    intro sp hsp
    have hm := hspan sp hsp
    have hcg := canonTags_getD sorted 0 L sp.1 hchain (Nat.zero_le _)
      (by omega)
    rw [show sp.1 - 0 = sp.1 from rfl] at hcg
    rw [hcg]
    have hcontains : spanContains sp sp.1 = true := by
      rw [spanContains_iff]
      omega
    rw [pointTag_eq_of_find?
      (find?_contains_unique sp.1 sorted hdisj' sp hsp hcontains) _,
      if_pos rfl]
  have hparts : buildPartsAux [] 0 (canonTags 0 sorted L)
      = sorted.map (fun sp => List.range' sp.1 (sp.2.1 - sp.1)) := by
    rw [buildPartsAux_canon sorted 0 L [] hchain, List.nil_append]
  have hcond : ∀ P ∈ sorted.map (fun sp => List.range' sp.1 (sp.2.1 - sp.1)),
      P ≠ [] ∧ List.Pairwise (· < ·) P ∧
      labelAfterDash ((canonTags 0 sorted L).getD (P.headD 0) []) ≠ none := by
    intro P hP
    obtain ⟨sp, hsp, rfl⟩ := List.mem_map.mp hP
    have hm := hspan sp hsp
    have hrc := range'_cons_of_lt sp.1 sp.2.1 hm.1
    refine ⟨by rw [hrc]; simp, List.pairwise_lt_range' _ _, ?_⟩
    rw [show (List.range' sp.1 (sp.2.1 - sp.1)).headD 0 = sp.1 from by
      rw [hrc]; rfl]
    rw [hstart sp hsp, labelAfterDash_B]
    simp
  have hextract := extract_general (canonTags 0 sorted L)
    (sorted.map (fun sp => List.range' sp.1 (sp.2.1 - sp.1))) [] hcond
  rw [List.nil_append] at hextract
  have hmapfn : ∀ sp ∈ sorted,
      ((fun P => (P.headD 0, P.getLastD 0 + 1,
          (labelAfterDash
            ((canonTags 0 sorted L).getD (P.headD 0) [])).getD []))
        ∘ (fun sp : ℕ × ℕ × List Char =>
            List.range' sp.1 (sp.2.1 - sp.1))) sp = sp := by
    intro sp hsp
    have hm := hspan sp hsp
    have hrc := range'_cons_of_lt sp.1 sp.2.1 hm.1
    have hhead : (List.range' sp.1 (sp.2.1 - sp.1)).headD 0 = sp.1 := by
      rw [hrc]; rfl
    show ((List.range' sp.1 (sp.2.1 - sp.1)).headD 0,
      (List.range' sp.1 (sp.2.1 - sp.1)).getLastD 0 + 1,
      (labelAfterDash ((canonTags 0 sorted L).getD
        ((List.range' sp.1 (sp.2.1 - sp.1)).headD 0) [])).getD []) = sp
    have hlast :
        (List.range' sp.1 (sp.2.1 - sp.1)).getLastD 0 + 1 = sp.2.1 := by
      have h2 : sp.2.1 - sp.1 = (sp.2.1 - sp.1 - 1) + 1 := by omega
      rw [h2, range'_getLastD]
      omega
    rw [hhead, hlast, hstart sp hsp, labelAfterDash_B]
    rfl
  have hmapeq :
      (sorted.map (fun sp => List.range' sp.1 (sp.2.1 - sp.1))).map
        (fun P => (P.headD 0, P.getLastD 0 + 1,
          (labelAfterDash
            ((canonTags 0 sorted L).getD (P.headD 0) [])).getD []))
        = sorted := by
    rw [List.map_map, List.map_congr_left hmapfn]
    simp
  have hdecode : bio_decode (canonTags 0 sorted L) = some sorted := by
    rw [bio_decode, if_pos (canonTags_tags_ok sorted 0 L), hparts, hextract,
      hmapeq]
  refine ⟨spans.foldl writeSpanTags (List.replicate L ['O']), sorted, hrun,
    ?_, fun sp => hperm.mem_iff⟩
  rw [htagseq]
  exact hdecode

/-- Witness for C8 at the single span (0, 1, x) and length 1. -/
theorem C8_bio_roundtrip_witness :
    ((∀ sp ∈ [((0 : ℕ), (1 : ℕ), ['x'])], sp.1 < sp.2.1 ∧ sp.2.1 ≤ 1) ∧
      List.Pairwise SpanDisj [((0 : ℕ), (1 : ℕ), ['x'])] ∧
      (∀ a ∈ [((0 : ℕ), (1 : ℕ), ['x'])],
        ∀ b ∈ [((0 : ℕ), (1 : ℕ), ['x'])], a.2.1 = b.1 → a.2.2 ≠ b.2.2)) ∧
    (∃ tags spansOut, bio_run [((0 : ℕ), (1 : ℕ), ['x'])] 1 = some tags ∧
      bio_decode tags = some spansOut ∧
      ∀ sp, sp ∈ spansOut ↔ sp ∈ [((0 : ℕ), (1 : ℕ), ['x'])]) :=
  ⟨⟨by decide, by simp, by decide⟩,
    C8_bio_roundtrip [((0 : ℕ), (1 : ℕ), ['x'])] 1 (by decide) (by simp)
      (by decide)⟩

/-- C10: on any tag list whose tags all begin with B, I or O and whose B/I
tags contain a dash, decode succeeds and the returned spans are pairwise
disjoint, listed in strictly increasing start order, nonempty, and each
starts at a position carrying a B tag. -/
theorem C10_decode_invariants (tags : List (List Char))
    (hTagsOk : ∀ t ∈ tags, t.take 1 = ['B'] ∨ t.take 1 = ['I'] ∨ t.take 1 = ['O'])
    (hdash : ∀ t ∈ tags, (t.take 1 = ['B'] ∨ t.take 1 = ['I']) → '-' ∈ t) :
    ∃ spans, bio_decode tags = some spans ∧
      (∀ sp ∈ spans, sp.1 < sp.2.1) ∧
      List.Pairwise (fun a b : ℕ × ℕ × List Char => a.2.1 ≤ b.1 ∧ a.1 < b.1)
        spans ∧
      (∀ sp ∈ spans, (tags.getD sp.1 []).take 1 = ['B']) := by
  obtain ⟨spans, h1, h2, h3, h4⟩ := bio_decode_char tags hTagsOk hdash
  exact ⟨spans, h1, h2, h3, fun sp hsp => (h4 sp hsp).1⟩

/-- Witness for C10 at the concrete tag list [B-x]. -/
theorem C10_decode_invariants_witness :
    ((∀ t ∈ [['B', '-', 'x']],
        List.take 1 t = ['B'] ∨ List.take 1 t = ['I'] ∨ List.take 1 t = ['O']) ∧
      (∀ t ∈ [['B', '-', 'x']],
        (List.take 1 t = ['B'] ∨ List.take 1 t = ['I']) → '-' ∈ t)) ∧
    (∃ spans, bio_decode [['B', '-', 'x']] = some spans ∧
      (∀ sp ∈ spans, sp.1 < sp.2.1) ∧
      List.Pairwise (fun a b : ℕ × ℕ × List Char => a.2.1 ≤ b.1 ∧ a.1 < b.1)
        spans ∧
      (∀ sp ∈ spans, (List.getD [['B', '-', 'x']] sp.1 []).take 1 = ['B'])) :=
  ⟨⟨by decide, by decide⟩,
    C10_decode_invariants [['B', '-', 'x']] (by decide) (by decide)⟩

/-- C3 counterexample: decode attaches an I tag across an intervening O to
the most recently opened part, so on [B-x, O, I-x] the emitted span is
(0, 3, x): the span did not close at the O, and the I, which has no open
span by the claim's reading, is not ignored. -/
theorem C3_counterexample :
    bio_decode [['B', '-', 'x'], ['O'], ['I', '-', 'x']]
        = some [(0, 3, ['x'])] ∧
    some [(0, 3, ['x'])] ≠ some [((0 : ℕ), (1 : ℕ), ['x'])] := by
  constructor
  · decide
  · decide

/-- C3 amended: an I tag is ignored only while no part has been opened by
any earlier B tag (a tag list with no B at all decodes to no spans); a
span's label is taken from the B tag at its start position; and a part is
closed only by the next B tag or the end of input — an O tag does not close
it, so an I following an O still extends the most recently opened part, as
on [B-x, O, I-x] which decodes to [(0, 3, x)]. -/
theorem C3_decode_behaviour :
    (∀ tags : List (List Char),
      (∀ t ∈ tags,
        t.take 1 = ['B'] ∨ t.take 1 = ['I'] ∨ t.take 1 = ['O']) →
      (∀ t ∈ tags, ¬(t.take 1 = ['B'])) →
      bio_decode tags = some []) ∧
    (∀ tags : List (List Char),
      (∀ t ∈ tags,
        t.take 1 = ['B'] ∨ t.take 1 = ['I'] ∨ t.take 1 = ['O']) →
      (∀ t ∈ tags, (t.take 1 = ['B'] ∨ t.take 1 = ['I']) → '-' ∈ t) →
      ∃ spans, bio_decode tags = some spans ∧
        ∀ sp ∈ spans, (tags.getD sp.1 []).take 1 = ['B'] ∧
          labelAfterDash (tags.getD sp.1 []) = some sp.2.2) ∧
    bio_decode [['B', '-', 'x'], ['O'], ['I', '-', 'x']]
        = some [(0, 3, ['x'])] := by
  refine ⟨?_, ?_, by decide⟩
  · intro tags hTagsOk hnoB
    rw [bio_decode, if_pos hTagsOk, buildPartsAux_noB tags hnoB 0]
    rfl
  · intro tags hTagsOk hdash
    obtain ⟨spans, h1, -, -, h4⟩ := bio_decode_char tags hTagsOk hdash
    exact ⟨spans, h1, h4⟩

/-- Witness for C3's amended theorem at the tag list [O, I-y] (no B tag). -/
theorem C3_decode_behaviour_witness :
    ((∀ t ∈ [['O'], ['I', '-', 'y']],
        List.take 1 t = ['B'] ∨ List.take 1 t = ['I'] ∨ List.take 1 t = ['O']) ∧
      (∀ t ∈ [['O'], ['I', '-', 'y']], ¬(List.take 1 t = ['B']))) ∧
    bio_decode [['O'], ['I', '-', 'y']] = some [] :=
  ⟨⟨by decide, by decide⟩,
    C3_decode_behaviour.1 [['O'], ['I', '-', 'y']] (by decide) (by decide)⟩

/-- C5: the box-fill encoder starts from an L × L grid of the None id (the
empty entity list returns it unchanged), and filling one entity spanning
[1, 3) with label id lid into a 4 × 4 grid with None = 0 puts lid at every
cell (i, j) with i, j ∈ {1, 2} and leaves 0 everywhere else. -/
theorem C5_box_fill (lid : ℕ) :
    (∀ noneId L, add_joint_label_ent [] noneId L
      = some (List.replicate L (List.replicate L noneId))) ∧
    add_joint_label_ent [(1, 3, lid)] 0 4
      = some [[0, 0, 0, 0], [0, lid, lid, 0], [0, lid, lid, 0], [0, 0, 0, 0]] :=
  ⟨fun _ _ => rfl, rfl⟩

/-- C7: for a fixed distance profile, raising the separate threshold can only
remove boundary positions: the boundary list at the larger threshold is a
sub-collection of the one at the smaller threshold, and in particular its
length never increases. -/
theorem C7_boundary_antitone (dist : List ℚ) (t1 t2 : ℚ) (h : t1 ≤ t2) :
    (∀ p ∈ separate_pos dist t2, p ∈ separate_pos dist t1) ∧
    (separate_pos dist t2).length ≤ (separate_pos dist t1).length := by
  have hsub : (separate_pos dist t2).Sublist (separate_pos dist t1) := by
    apply List.monotone_filter_right
    intro a ha
    simp only [decide_eq_true_eq] at ha ⊢
    exact lt_of_le_of_lt h ha
  exact ⟨fun p hp => hsub.mem hp, hsub.length_le⟩

/-- Witness for C7 at dist = [0, 2], thresholds 0 ≤ 1. -/
theorem C7_boundary_antitone_witness :
    (0 : ℚ) ≤ 1 ∧
    ((∀ p ∈ separate_pos [0, 2] 1, p ∈ separate_pos [0, 2] 0) ∧
      (separate_pos [0, 2] 1).length ≤ (separate_pos [0, 2] 0).length) :=
  ⟨by decide, C7_boundary_antitone [0, 2] 0 1 (by decide)⟩
